import Mathlib

/-!
Shallow embedding of the `stpp` streaming text preprocessor (src/stpp.cpp).

Streams (`std::istream`) are modelled as `List Char`; reading a character
consumes the head.  The output sink is an accumulated `List Char`.  The
mutable `Context` (tag set plus nesting depth) is threaded explicitly.
The mutually recursive block interpreter (`consume`, `consume_next`,
`handle_if` and the `while` loop inside `handle_if`, modelled as `if_loop`)
can genuinely diverge (an `#if` that is never closed), so those functions
take a fuel parameter that is decremented on every `if`-related event; fuel
exhaustion is reported by a dedicated `spin` result.
-/

set_option maxHeartbeats 1000000

/-- C `isspace` in the default locale over ASCII: space, tab, newline,
vertical tab, form feed, carriage return. -/
def cIsSpace (c : Char) : Bool :=
  c = ' ' || c = '\t' || c = '\n' || c = Char.ofNat 11 || c = Char.ofNat 12 || c = Char.ofNat 13

/-- The directive marker character `PP_START`. -/
def PP_START : Char := '#'

/-- The `Operation` enumeration of `stpp.cpp`. -/
inductive Operation where
  | If
  | Elif
  | Else
  | Endif
  | Define
  | Undef
  | Unknown
deriving DecidableEq, Repr

/-- Loop body of `extract_operation`: collect at most 16 non-whitespace
characters; a newline or (once a character was collected) a whitespace
character terminates the scan and is consumed.  When the counter reaches the
cap the loop condition `counter < MAX_BUF_SIZE && in.get(c)` fails before
another character is read, so the remaining characters stay on the stream. -/
def extractLoop : List Char → Nat → Bool → String → String × List Char
  | [], _, _, buf => (buf, [])
  | c :: rest, counter, started, buf =>
    if 16 ≤ counter then (buf, c :: rest)
    else if c = '\n' then (buf, rest)
    else if cIsSpace c = false then extractLoop rest (counter + 1) true (buf.push c)
    else if started then (buf, rest)
    else extractLoop rest counter started buf

/-- Classification of the collected word, exactly as in `extract_operation`. -/
def classifyOp (buf : String) : Operation :=
  if buf = "if" then .If
  else if buf = "elif" then .Elif
  else if buf = "else" then .Else
  else if buf = "endif" then .Endif
  else if buf = "define" then .Define
  else if buf = "undef" then .Undef
  else .Unknown

/-- `extract_operation`: scan the directive keyword and classify it;
also returns the collected word (for echoing) and the remaining stream. -/
def extract_operation (s : List Char) : Operation × String × List Char :=
  let p := extractLoop s 0 false ""
  (classifyOp p.1, p.1, p.2)

/-- `get_tag`: read the (whitespace-trimmed) argument of `define`/`undef`,
stopping at end of line, end of stream, or the first whitespace after a
non-empty token (the terminator is consumed). -/
def get_tag (s : List Char) : String × List Char :=
  go s false ""
where
  go (s : List Char) (started : Bool) (buf : String) : String × List Char :=
    match s with
    | [] => (buf, [])
    | c :: rest =>
      if c = '\n' then (buf, rest)
      else if cIsSpace c = false then go rest true (buf.push c)
      else if started then (buf, rest)
      else go rest started buf

/-- The `Context` structure: the mutable tag set (modelled as a list with
set-like insert/erase) and the nesting depth counter. -/
structure Context where
  Tags : List String
  Depth : Nat
deriving DecidableEq, Repr

/-- `ctx.Tags.count(tag) > 0`. -/
def Context.hasTag (ctx : Context) (tag : String) : Bool :=
  ctx.Tags.contains tag

/-- `handle_define`: read the tag; an empty tag is a fatal error (`none`),
otherwise the tag is inserted into the context. -/
def handle_define (s : List Char) (ctx : Context) : Option (Context × List Char) :=
  let p := get_tag s
  if p.1 = "" then none
  else some ({ ctx with Tags := ctx.Tags.insert p.1 }, p.2)

/-- `handle_undef`: read the tag; an empty tag is a fatal error (`none`),
otherwise the tag is erased from the context. -/
def handle_undef (s : List Char) (ctx : Context) : Option (Context × List Char) :=
  let p := get_tag s
  if p.1 = "" then none
  else some ({ ctx with Tags := ctx.Tags.erase p.1 }, p.2)

/-- Tokens of the condition-expression language (`TokenType` plus the tag
payload).  `EOS` is the sentinel returned by `ExprLexer::current()` past the
end of the token vector. -/
inductive Token where
  | Tag : String → Token
  | ParantheseOpen
  | ParantheseClose
  | And
  | Or
  | Xor
  | Not
  | EOS
deriving DecidableEq, Repr

/-- `checkAddTag`: flush a non-empty tag buffer into the token list. -/
def flushTag (buf : String) (acc : List Token) : List Token :=
  if buf = "" then acc else acc ++ [Token.Tag buf]

/-- The `ExprLexer` constructor loop: tokenize one line (terminated by a
consumed newline or end of stream).  A lone `&` or `|` still emits
`And`/`Or` and pushes the look-ahead character back (at end of stream the
unmodified character `c` makes the two-character test succeed). -/
def lexLoop : List Char → String → List Token → List Token × List Char
  | [], buf, acc => (flushTag buf acc, [])
  | c :: rest, buf, acc =>
    if c = '\n' then (flushTag buf acc, rest)
    else if cIsSpace c then lexLoop rest "" (flushTag buf acc)
    else if c = '!' then lexLoop rest "" (flushTag buf acc ++ [Token.Not])
    else if c = '^' then lexLoop rest "" (flushTag buf acc ++ [Token.Xor])
    else if c = '(' then lexLoop rest "" (flushTag buf acc ++ [Token.ParantheseOpen])
    else if c = ')' then lexLoop rest "" (flushTag buf acc ++ [Token.ParantheseClose])
    else if c = '&' then
      match rest with
      | [] => (flushTag buf acc ++ [Token.And], [])
      | d :: rest2 =>
        if d = '&' then lexLoop rest2 "" (flushTag buf acc ++ [Token.And])
        else lexLoop (d :: rest2) "" (flushTag buf acc ++ [Token.And])
    else if c = '|' then
      match rest with
      | [] => (flushTag buf acc ++ [Token.Or], [])
      | d :: rest2 =>
        if d = '|' then lexLoop rest2 "" (flushTag buf acc ++ [Token.Or])
        else lexLoop (d :: rest2) "" (flushTag buf acc ++ [Token.Or])
    else lexLoop rest (buf.push c) acc

/-- Construction of `ExprLexer`: the token sequence of one condition line
and the stream position after that line. -/
def lexLine (s : List Char) : List Token × List Char :=
  lexLoop s "" []

/-- `ExprLexer::current()` on the remaining token list. -/
def curTok (ts : List Token) : Token :=
  match ts with
  | [] => Token.EOS
  | t :: _ => t


/-
The fused recursive-descent parser/evaluator over the token sequence
(`primary_condition`, `unary_condition`, `binary_condition`).
The lexer position is the remaining token list; `accept` always advances by
one token (even on mismatch), and `binary_condition` itself consumes the
`EOS`/`)` token it dispatches on.  Each function returns the evaluated
boolean together with the remaining tokens, packaged with the invariant
that tokens are only ever consumed (needed for termination).
-/
mutual

/-- `primary_condition`: parenthesized sub-expression or bare tag lookup. -/
def primary_condition (ts : List Token) (ctx : Context) :
    Bool × { r : List Token // r.length ≤ ts.length } :=
  match ts with
  | Token.ParantheseOpen :: tl =>
    let p := binary_condition tl ctx
    if curTok p.2.val = Token.ParantheseClose then
      (p.1, ⟨p.2.val.tail, by
        have h1 := p.2.property
        have h2 : p.2.val.tail.length ≤ p.2.val.length := by
          cases h : p.2.val <;> simp
        simp only [List.length_cons]; omega⟩)
    else
      (false, ⟨p.2.val.tail, by
        have h1 := p.2.property
        have h2 : p.2.val.tail.length ≤ p.2.val.length := by
          cases h : p.2.val <;> simp
        simp only [List.length_cons]; omega⟩)
  | Token.Tag name :: tl =>
    (ctx.hasTag name, ⟨tl, by simp⟩)
  | [] => (false, ⟨[], by simp⟩)
  | _ :: tl => (false, ⟨tl, by simp⟩)
termination_by (ts.length, 0)
decreasing_by
  apply Prod.Lex.left; simp

/-- `unary_condition`: chain of `!` in front of a primary. -/
def unary_condition (ts : List Token) (ctx : Context) :
    Bool × { r : List Token // r.length ≤ ts.length } :=
  match ts with
  | Token.Not :: tl =>
    let p := unary_condition tl ctx
    (!p.1, ⟨p.2.val, by
      have h1 := p.2.property; simp only [List.length_cons]; omega⟩)
  | [] => primary_condition [] ctx
  | t :: tl => primary_condition (t :: tl) ctx
termination_by (ts.length, 1)
decreasing_by
  all_goals simp_wf
  · apply Prod.Lex.left; omega
  · exact Prod.Lex.right 0 (by omega)
  · exact Prod.Lex.right (tl.length + 1) (by omega)

/-- `binary_condition`: parse one unary term, then dispatch on the next
token; `And`/`Or`/`Xor` recursively parse the entire remainder as one
sub-expression (the right-fold quirk), `EOS`/`)` are consumed and the term
is returned, anything else is the `return false` TODO branch. -/
def binary_condition (ts : List Token) (ctx : Context) :
    Bool × { r : List Token // r.length ≤ ts.length } :=
  let p := unary_condition ts ctx
  if curTok p.2.val = Token.EOS ∨ curTok p.2.val = Token.ParantheseClose then
    (p.1, ⟨p.2.val.tail, by
      have h1 := p.2.property
      have h2 : p.2.val.tail.length ≤ p.2.val.length := by cases h : p.2.val <;> simp
      omega⟩)
  else if h : curTok p.2.val = Token.And then
    let q := binary_condition p.2.val.tail ctx
    (p.1 && q.1, ⟨q.2.val, by
      have h1 := p.2.property
      have h2 := q.2.property
      have h3 : p.2.val.tail.length ≤ p.2.val.length := by cases hv : p.2.val <;> simp
      omega⟩)
  else if h : curTok p.2.val = Token.Or then
    let q := binary_condition p.2.val.tail ctx
    (p.1 || q.1, ⟨q.2.val, by
      have h1 := p.2.property
      have h2 := q.2.property
      have h3 : p.2.val.tail.length ≤ p.2.val.length := by cases hv : p.2.val <;> simp
      omega⟩)
  else if h : curTok p.2.val = Token.Xor then
    let q := binary_condition p.2.val.tail ctx
    (xor p.1 q.1, ⟨q.2.val, by
      have h1 := p.2.property
      have h2 := q.2.property
      have h3 : p.2.val.tail.length ≤ p.2.val.length := by cases hv : p.2.val <;> simp
      omega⟩)
  else
    (false, ⟨p.2.val, p.2.property⟩)
termination_by (ts.length, 2)
decreasing_by
  all_goals simp_wf
  · exact Prod.Lex.right ts.length (by omega)
  all_goals
    have h1 := p.2.property
    apply Prod.Lex.left
    cases hv : p.2.val with
    | nil => rw [hv] at h; simp [curTok] at h
    | cons t tl =>
      first
        | (rw [hv] at h1; simp only [List.length_cons] at h1 ⊢; omega)
        | (simp only [List.length_cons] at h1 ⊢; omega)
        | (simp at h1 ⊢; omega)
        | omega

end

/-- `handle_condition`: lex one line; an immediately empty token sequence is
the "expected condition but got nothing" error (the C++ code reports it and
returns `false`, which the caller uses as the condition's value), otherwise
evaluate `binary_condition`.  Returns the boolean and the stream after the
condition line. -/
def handle_condition (s : List Char) (ctx : Context) : Bool × List Char :=
  let p := lexLine s
  if p.1 = [] then (false, p.2)
  else ((binary_condition p.1 ctx).1, p.2)

/-- The directive scanner only ever consumes characters from the stream. -/
theorem extractLoop_rest_le (s : List Char) (k : Nat) (st : Bool) (buf : String) :
    ((extractLoop s k st buf).2).length ≤ s.length := by
  induction s generalizing k st buf with
  | nil => simp [extractLoop]
  | cons c rest ih =>
    rw [extractLoop]
    split
    · simp
    · split
      · simp
      · split
        · exact Nat.le_trans (ih _ _ _) (by simp)
        · split
          · simp
          · exact Nat.le_trans (ih _ _ _) (by simp)

/-- `extract_operation` only ever consumes characters. -/
theorem extract_operation_rest_le (s : List Char) :
    ((extract_operation s).2.2).length ≤ s.length :=
  extractLoop_rest_le s 0 false ""

/-- The tag reader only ever consumes characters. -/
theorem get_tag_go_rest_le (s : List Char) (st : Bool) (buf : String) :
    ((get_tag.go s st buf).2).length ≤ s.length := by
  induction s generalizing st buf with
  | nil => simp [get_tag.go]
  | cons c rest ih =>
    rw [get_tag.go]
    split
    · simp
    · split
      · exact Nat.le_trans (ih _ _) (by simp)
      · split
        · simp
        · exact Nat.le_trans (ih _ _) (by simp)

/-- `get_tag` only ever consumes characters. -/
theorem get_tag_rest_le (s : List Char) : ((get_tag s).2).length ≤ s.length :=
  get_tag_go_rest_le s false ""

/-- Result of a run (or of one recursive scan) of the interpreter:
`ok` is C++ `return true` (with the emitted output and the resulting state),
`fatal` is C++ `return false` (the output already emitted, plus the context
and stream position at the failure, since by-reference state survives),
`spin` is fuel exhaustion, i.e. genuine divergence of the C++ code. -/
inductive Res (α : Type) where
  | ok (out : List Char) (a : α)
  | fatal (out : List Char) (ctx : Context) (s : List Char)
  | spin (out : List Char)
deriving DecidableEq, Repr

/-- Prefix output already streamed before a sub-computation's output. -/
def Res.prep {α : Type} (r : Res α) (pre : List Char) : Res α :=
  match r with
  | .ok out a => .ok (pre ++ out) a
  | .fatal out ctx s => .fatal (pre ++ out) ctx s
  | .spin out => .spin (pre ++ out)

/-- `handle_define` including the stream position it leaves behind even on
failure (the C++ stream is advanced by `get_tag` regardless). -/
def handle_define2 (s : List Char) (ctx : Context) : Option Context × List Char :=
  let p := get_tag s
  ((if p.1 = "" then none else some { ctx with Tags := ctx.Tags.insert p.1 }), p.2)

/-- `handle_undef` in the same stream-preserving form. -/
def handle_undef2 (s : List Char) (ctx : Context) : Option Context × List Char :=
  let p := get_tag s
  ((if p.1 = "" then none else some { ctx with Tags := ctx.Tags.erase p.1 }), p.2)

/-- `handle_define2` leaves a stream no longer than its input. -/
theorem handle_define2_rest_le (s : List Char) (ctx : Context) :
    ((handle_define2 s ctx).2).length ≤ s.length :=
  get_tag_rest_le s

/-- `handle_undef2` leaves a stream no longer than its input. -/
theorem handle_undef2_rest_le (s : List Char) (ctx : Context) :
    ((handle_undef2 s ctx).2).length ≤ s.length :=
  get_tag_rest_le s

/-
The conditional block interpreter.  `consume` is the top-level scan,
`consume_next` the body scan that additionally returns control on
`elif`/`else`/`endif` (via the in-out parameter `cur`, which keeps its old
value when end of stream is reached), `handle_if` the conditional block
handler and `if_loop` its `while (consume_next(...))` loop.  Fuel is
consumed at every entry into `handle_if` and at every `if_loop` iteration;
everything else recurses structurally on the stream.
-/
mutual

/-- `consume`: the top-level stream scan. -/
def consume (fuel : Nat) (s : List Char) (ctx : Context) (ignore : Bool) : Res Context :=
  match s with
  | [] => .ok [] ctx
  | c :: s1 =>
    if c = PP_START then
      match (extract_operation s1).1 with
      | .If =>
        match fuel with
        | 0 => .spin []
        | f + 1 =>
          match handle_if f (extract_operation s1).2.2 ctx ignore with
          | .ok out a => (consume f a.2 a.1 ignore).prep out
          | .fatal out c2 s2 => .fatal out c2 s2
          | .spin out => .spin out
      | .Define =>
        have hx : ((extract_operation s1).2.2).length ≤ s1.length := extract_operation_rest_le s1
        have hy : ((handle_define2 (extract_operation s1).2.2 ctx).2).length ≤
            ((extract_operation s1).2.2).length := handle_define2_rest_le _ ctx
        if ignore then consume fuel (extract_operation s1).2.2 ctx ignore
        else
          match (handle_define2 (extract_operation s1).2.2 ctx).1 with
          | none => .fatal [] ctx (handle_define2 (extract_operation s1).2.2 ctx).2
          | some ctx2 => consume fuel (handle_define2 (extract_operation s1).2.2 ctx).2 ctx2 ignore
      | .Undef =>
        have hx : ((extract_operation s1).2.2).length ≤ s1.length := extract_operation_rest_le s1
        have hy : ((handle_undef2 (extract_operation s1).2.2 ctx).2).length ≤
            ((extract_operation s1).2.2).length := handle_undef2_rest_le _ ctx
        if ignore then consume fuel (extract_operation s1).2.2 ctx ignore
        else
          match (handle_undef2 (extract_operation s1).2.2 ctx).1 with
          | none => .fatal [] ctx (handle_undef2 (extract_operation s1).2.2 ctx).2
          | some ctx2 => consume fuel (handle_undef2 (extract_operation s1).2.2 ctx).2 ctx2 ignore
      | _ =>
        have hx : ((extract_operation s1).2.2).length ≤ s1.length := extract_operation_rest_le s1
        if ignore then consume fuel (extract_operation s1).2.2 ctx ignore
        else (consume fuel (extract_operation s1).2.2 ctx ignore).prep
          (PP_START :: ((extract_operation s1).2.1).data)
    else
      if ignore then consume fuel s1 ctx ignore
      else (consume fuel s1 ctx ignore).prep [c]
termination_by (fuel, s.length)

/-- `consume_next`: the body scan used inside conditional blocks; returns
on `elif`/`else`/`endif` with the updated `cur`. -/
def consume_next (fuel : Nat) (s : List Char) (ctx : Context) (ignore : Bool)
    (cur : Operation) : Res (Context × List Char × Operation) :=
  match s with
  | [] => .ok [] (ctx, [], cur)
  | c :: s1 =>
    if c = PP_START then
      match (extract_operation s1).1 with
      | .If =>
        match fuel with
        | 0 => .spin []
        | f + 1 =>
          match handle_if f (extract_operation s1).2.2 ctx ignore with
          | .ok out a => (consume_next f a.2 a.1 ignore cur).prep out
          | .fatal out c2 s2 => .fatal out c2 s2
          | .spin out => .spin out
      | .Elif => .ok [] (ctx, (extract_operation s1).2.2, .Elif)
      | .Else => .ok [] (ctx, (extract_operation s1).2.2, .Else)
      | .Endif => .ok [] (ctx, (extract_operation s1).2.2, .Endif)
      | .Define =>
        have hx : ((extract_operation s1).2.2).length ≤ s1.length := extract_operation_rest_le s1
        have hy : ((handle_define2 (extract_operation s1).2.2 ctx).2).length ≤
            ((extract_operation s1).2.2).length := handle_define2_rest_le _ ctx
        if ignore then consume_next fuel (extract_operation s1).2.2 ctx ignore cur
        else
          match (handle_define2 (extract_operation s1).2.2 ctx).1 with
          | none => .fatal [] ctx (handle_define2 (extract_operation s1).2.2 ctx).2
          | some ctx2 =>
            consume_next fuel (handle_define2 (extract_operation s1).2.2 ctx).2 ctx2 ignore cur
      | .Undef =>
        have hx : ((extract_operation s1).2.2).length ≤ s1.length := extract_operation_rest_le s1
        have hy : ((handle_undef2 (extract_operation s1).2.2 ctx).2).length ≤
            ((extract_operation s1).2.2).length := handle_undef2_rest_le _ ctx
        if ignore then consume_next fuel (extract_operation s1).2.2 ctx ignore cur
        else
          match (handle_undef2 (extract_operation s1).2.2 ctx).1 with
          | none => .fatal [] ctx (handle_undef2 (extract_operation s1).2.2 ctx).2
          | some ctx2 =>
            consume_next fuel (handle_undef2 (extract_operation s1).2.2 ctx).2 ctx2 ignore cur
      | .Unknown =>
        have hx : ((extract_operation s1).2.2).length ≤ s1.length := extract_operation_rest_le s1
        if ignore then consume_next fuel (extract_operation s1).2.2 ctx ignore cur
        else (consume_next fuel (extract_operation s1).2.2 ctx ignore cur).prep
          (PP_START :: ((extract_operation s1).2.1).data)
    else
      if ignore then consume_next fuel s1 ctx ignore cur
      else (consume_next fuel s1 ctx ignore cur).prep [c]
termination_by (fuel, s.length)

/-- `handle_if`: evaluate the guard (only when not inherited-ignored — the
C++ `!ignore && handle_condition(in, ctx)` short-circuits, leaving the
condition text on the stream when ignored), bump the depth, run the branch
loop, and decrement the depth.  Always returns `true` in C++; failures of
`consume_next` merely terminate the loop. -/
def handle_if (fuel : Nat) (s : List Char) (ctx : Context) (ignore : Bool) :
    Res (Context × List Char) :=
  match fuel with
  | 0 => .spin []
  | f + 1 =>
    match if_loop f (if ignore then s else (handle_condition s ctx).2)
        ⟨ctx.Tags, ctx.Depth + 1⟩ ignore
        (if ignore then false else (handle_condition s ctx).1) false .If with
    | .ok out a => .ok out (⟨a.1.Tags, a.1.Depth - 1⟩, a.2)
    | .fatal out c2 s2 => .fatal out c2 s2
    | .spin out => .spin out
termination_by (fuel, s.length)

/-- The `while (consume_next(...))` loop of `handle_if`, with the loop
state `condition`, `once_true` and the in-out directive `cur`.  A `false`
(fatal) return of `consume_next` merely exits the loop (the C++ `while`
condition), so errors inside a block are swallowed. -/
def if_loop (fuel : Nat) (s : List Char) (ctx : Context)
    (ignore condition once_true : Bool) (cur : Operation) : Res (Context × List Char) :=
  match fuel with
  | 0 => .spin []
  | f + 1 =>
    match consume_next f s ctx (ignore || once_true || !condition) cur with
    | .fatal out c2 s2 => .ok out (c2, s2)
    | .spin out => .spin out
    | .ok out a =>
      if a.2.2 = Operation.Endif then .ok out (a.1, a.2.1)
      else
        if once_true || condition then
          (if_loop f a.2.1 a.1 ignore false true a.2.2).prep out
        else if a.2.2 = Operation.Elif then
          (if_loop f (handle_condition a.2.1 a.1).2 a.1 ignore
            (handle_condition a.2.1 a.1).1 false a.2.2).prep out
        else
          (if_loop f a.2.1 a.1 ignore true false a.2.2).prep out
termination_by (fuel, s.length)

end

/-- Value component of `unary_condition`. -/
def ucVal (ts : List Token) (ctx : Context) : Bool := (unary_condition ts ctx).1

/-- Remaining-token component of `unary_condition`. -/
def ucRest (ts : List Token) (ctx : Context) : List Token := (unary_condition ts ctx).2.val

/-- Value component of `primary_condition`. -/
def pcVal (ts : List Token) (ctx : Context) : Bool := (primary_condition ts ctx).1

/-- Remaining-token component of `primary_condition`. -/
def pcRest (ts : List Token) (ctx : Context) : List Token := (primary_condition ts ctx).2.val

/-- Value component of `binary_condition`. -/
def bcVal (ts : List Token) (ctx : Context) : Bool := (binary_condition ts ctx).1

/-- Remaining-token component of `binary_condition`. -/
def bcRest (ts : List Token) (ctx : Context) : List Token := (binary_condition ts ctx).2.val

theorem ucVal_not (tl : List Token) (ctx : Context) :
    ucVal (Token.Not :: tl) ctx = !(ucVal tl ctx) := by
  unfold ucVal; rw [unary_condition.eq_1]

theorem ucRest_not (tl : List Token) (ctx : Context) :
    ucRest (Token.Not :: tl) ctx = ucRest tl ctx := by
  unfold ucRest; rw [unary_condition.eq_1]

theorem ucVal_nil (ctx : Context) : ucVal [] ctx = pcVal [] ctx := by
  unfold ucVal pcVal; rw [unary_condition.eq_2]

theorem ucRest_nil (ctx : Context) : ucRest [] ctx = pcRest [] ctx := by
  unfold ucRest pcRest; rw [unary_condition.eq_2]

theorem ucVal_cons (t : Token) (tl : List Token) (ctx : Context) (h : t ≠ Token.Not) :
    ucVal (t :: tl) ctx = pcVal (t :: tl) ctx := by
  unfold ucVal pcVal; rw [unary_condition.eq_3 ctx t tl (fun hh => h hh)]

theorem ucRest_cons (t : Token) (tl : List Token) (ctx : Context) (h : t ≠ Token.Not) :
    ucRest (t :: tl) ctx = pcRest (t :: tl) ctx := by
  unfold ucRest pcRest; rw [unary_condition.eq_3 ctx t tl (fun hh => h hh)]

theorem pcVal_paren_ok (tl : List Token) (ctx : Context)
    (h : curTok (bcRest tl ctx) = Token.ParantheseClose) :
    pcVal (Token.ParantheseOpen :: tl) ctx = bcVal tl ctx := by
  unfold bcRest at h
  unfold pcVal bcVal; rw [primary_condition.eq_1, if_pos h]

theorem pcRest_paren_ok (tl : List Token) (ctx : Context)
    (h : curTok (bcRest tl ctx) = Token.ParantheseClose) :
    pcRest (Token.ParantheseOpen :: tl) ctx = (bcRest tl ctx).tail := by
  unfold bcRest at h
  unfold pcRest bcRest; rw [primary_condition.eq_1, if_pos h]

theorem pcVal_paren_bad (tl : List Token) (ctx : Context)
    (h : curTok (bcRest tl ctx) ≠ Token.ParantheseClose) :
    pcVal (Token.ParantheseOpen :: tl) ctx = false := by
  unfold bcRest at h
  unfold pcVal; rw [primary_condition.eq_1, if_neg h]

theorem pcRest_paren_bad (tl : List Token) (ctx : Context)
    (h : curTok (bcRest tl ctx) ≠ Token.ParantheseClose) :
    pcRest (Token.ParantheseOpen :: tl) ctx = (bcRest tl ctx).tail := by
  unfold bcRest at h
  unfold pcRest bcRest; rw [primary_condition.eq_1, if_neg h]

theorem pcVal_tag (name : String) (tl : List Token) (ctx : Context) :
    pcVal (Token.Tag name :: tl) ctx = ctx.hasTag name := by
  unfold pcVal; rw [primary_condition.eq_2]

theorem pcRest_tag (name : String) (tl : List Token) (ctx : Context) :
    pcRest (Token.Tag name :: tl) ctx = tl := by
  unfold pcRest; rw [primary_condition.eq_2]

theorem pcVal_nil (ctx : Context) : pcVal [] ctx = false := by
  unfold pcVal; rw [primary_condition.eq_3]

theorem pcRest_nil (ctx : Context) : pcRest [] ctx = [] := by
  unfold pcRest; rw [primary_condition.eq_3]

theorem pcVal_other (t : Token) (tl : List Token) (ctx : Context)
    (h1 : t ≠ Token.ParantheseOpen) (h2 : ∀ name, t ≠ Token.Tag name) :
    pcVal (t :: tl) ctx = false := by
  unfold pcVal
  rw [primary_condition.eq_4 ctx t tl (fun hh => h1 hh) (fun n hh => h2 n hh)]

theorem pcRest_other (t : Token) (tl : List Token) (ctx : Context)
    (h1 : t ≠ Token.ParantheseOpen) (h2 : ∀ name, t ≠ Token.Tag name) :
    pcRest (t :: tl) ctx = tl := by
  unfold pcRest
  rw [primary_condition.eq_4 ctx t tl (fun hh => h1 hh) (fun n hh => h2 n hh)]

theorem bcVal_stop (ts : List Token) (ctx : Context)
    (h : curTok (ucRest ts ctx) = Token.EOS ∨ curTok (ucRest ts ctx) = Token.ParantheseClose) :
    bcVal ts ctx = ucVal ts ctx := by
  unfold ucRest at h
  unfold bcVal ucVal
  rw [binary_condition.eq_def, if_pos h]

theorem bcRest_stop (ts : List Token) (ctx : Context)
    (h : curTok (ucRest ts ctx) = Token.EOS ∨ curTok (ucRest ts ctx) = Token.ParantheseClose) :
    bcRest ts ctx = (ucRest ts ctx).tail := by
  unfold ucRest at h
  unfold bcRest ucRest
  rw [binary_condition.eq_def, if_pos h]

theorem bcVal_and (ts : List Token) (ctx : Context)
    (h : curTok (ucRest ts ctx) = Token.And) :
    bcVal ts ctx = (ucVal ts ctx && bcVal (ucRest ts ctx).tail ctx) := by
  unfold ucRest at h
  unfold bcVal ucVal ucRest
  rw [binary_condition.eq_def, if_neg (by simp [h]), dif_pos h]

theorem bcRest_and (ts : List Token) (ctx : Context)
    (h : curTok (ucRest ts ctx) = Token.And) :
    bcRest ts ctx = bcRest (ucRest ts ctx).tail ctx := by
  unfold ucRest at h
  unfold bcRest ucRest
  rw [binary_condition.eq_def, if_neg (by simp [h]), dif_pos h]

theorem bcVal_or (ts : List Token) (ctx : Context)
    (h : curTok (ucRest ts ctx) = Token.Or) :
    bcVal ts ctx = (ucVal ts ctx || bcVal (ucRest ts ctx).tail ctx) := by
  unfold ucRest at h
  unfold bcVal ucVal ucRest
  rw [binary_condition.eq_def, if_neg (by simp [h]), dif_neg (by simp [h]), dif_pos h]

theorem bcRest_or (ts : List Token) (ctx : Context)
    (h : curTok (ucRest ts ctx) = Token.Or) :
    bcRest ts ctx = bcRest (ucRest ts ctx).tail ctx := by
  unfold ucRest at h
  unfold bcRest ucRest
  rw [binary_condition.eq_def, if_neg (by simp [h]), dif_neg (by simp [h]), dif_pos h]

theorem bcVal_xor (ts : List Token) (ctx : Context)
    (h : curTok (ucRest ts ctx) = Token.Xor) :
    bcVal ts ctx = xor (ucVal ts ctx) (bcVal (ucRest ts ctx).tail ctx) := by
  unfold ucRest at h
  unfold bcVal ucVal ucRest
  rw [binary_condition.eq_def, if_neg (by simp [h]), dif_neg (by simp [h]),
    dif_neg (by simp [h]), dif_pos h]

theorem bcRest_xor (ts : List Token) (ctx : Context)
    (h : curTok (ucRest ts ctx) = Token.Xor) :
    bcRest ts ctx = bcRest (ucRest ts ctx).tail ctx := by
  unfold ucRest at h
  unfold bcRest ucRest
  rw [binary_condition.eq_def, if_neg (by simp [h]), dif_neg (by simp [h]),
    dif_neg (by simp [h]), dif_pos h]

theorem bcVal_other (ts : List Token) (ctx : Context)
    (h1 : curTok (ucRest ts ctx) ≠ Token.EOS)
    (h2 : curTok (ucRest ts ctx) ≠ Token.ParantheseClose)
    (h3 : curTok (ucRest ts ctx) ≠ Token.And)
    (h4 : curTok (ucRest ts ctx) ≠ Token.Or)
    (h5 : curTok (ucRest ts ctx) ≠ Token.Xor) :
    bcVal ts ctx = false := by
  unfold ucRest at h1 h2 h3 h4 h5
  unfold bcVal
  rw [binary_condition.eq_def, if_neg (by simp [h1, h2]), dif_neg h3, dif_neg h4, dif_neg h5]

theorem bcRest_other (ts : List Token) (ctx : Context)
    (h1 : curTok (ucRest ts ctx) ≠ Token.EOS)
    (h2 : curTok (ucRest ts ctx) ≠ Token.ParantheseClose)
    (h3 : curTok (ucRest ts ctx) ≠ Token.And)
    (h4 : curTok (ucRest ts ctx) ≠ Token.Or)
    (h5 : curTok (ucRest ts ctx) ≠ Token.Xor) :
    bcRest ts ctx = ucRest ts ctx := by
  unfold ucRest at h1 h2 h3 h4 h5
  unfold bcRest ucRest
  rw [binary_condition.eq_def, if_neg (by simp [h1, h2]), dif_neg h3, dif_neg h4, dif_neg h5]

/-- `handle_condition` expressed through the component functions. -/
theorem handle_condition_eq (s : List Char) (ctx : Context) :
    handle_condition s ctx =
      ((if (lexLine s).1 = [] then false else bcVal (lexLine s).1 ctx), (lexLine s).2) := by
  unfold handle_condition bcVal
  split <;> rename_i hh <;> simp [hh]

/-- Evaluating `binary_condition` on an empty token sequence: the failed
`accept(Tag)` yields `false` and leaves no tokens. -/
theorem bcVal_empty (ctx : Context) : bcVal [] ctx = false := by
  have h0 : ucRest [] ctx = [] := by rw [ucRest_nil, pcRest_nil]
  rw [bcVal_stop [] ctx (by rw [h0]; simp [curTok]), ucVal_nil, pcVal_nil]

/-- Remaining tokens of `binary_condition` on an empty sequence. -/
theorem bcRest_empty (ctx : Context) : bcRest [] ctx = [] := by
  have h0 : ucRest [] ctx = [] := by rw [ucRest_nil, pcRest_nil]
  rw [bcRest_stop [] ctx (by rw [h0]; simp [curTok]), h0]; rfl

/-- Prefixing no output changes nothing. -/
theorem Res.prep_nil {α : Type} (r : Res α) : r.prep [] = r := by
  cases r <;> simp [Res.prep]

/-- Prefixed output composes by concatenation. -/
theorem Res.prep_prep {α : Type} (r : Res α) (a b : List Char) :
    (r.prep b).prep a = r.prep (a ++ b) := by
  cases r <;> simp [Res.prep]

/-- The keyword buffer never exceeds 16 characters. -/
theorem extractLoop_buf_le (s : List Char) (k : Nat) (st : Bool) (buf : String)
    (hb : buf.length = k) (hk : k ≤ 16) : ((extractLoop s k st buf).1).length ≤ 16 := by
  induction s generalizing k st buf with
  | nil => simpa [extractLoop, hb] using hk
  | cons c rest ih =>
    rw [extractLoop]
    split
    · simpa [hb] using hk
    · split
      · simpa [hb] using hk
      · split
        · rename_i hcap _ _
          exact ih (k + 1) true (buf.push c) (by simp [hb]) (by omega)
        · split
          · simpa [hb] using hk
          · exact ih k st buf hb hk

/-- Filling the keyword buffer: 16 non-whitespace characters are collected
and then the loop condition fails, leaving the remainder on the stream. -/
theorem extractLoop_fill (cs : List Char) (k : Nat) (st : Bool) (buf : String) (r : List Char)
    (hk : k + cs.length = 16) (hc : ∀ c ∈ cs, cIsSpace c = false) :
    extractLoop (cs ++ r) k st buf = (⟨buf.data ++ cs⟩, r) := by
  induction cs generalizing k st buf with
  | nil =>
    simp only [List.nil_append, List.length_nil, Nat.add_zero] at hk ⊢
    subst hk
    cases r <;> simp [extractLoop]
  | cons c cs2 ih =>
    have hcap : ¬ (16 ≤ k) := by simp at hk; omega
    have hcs : cIsSpace c = false := hc c (by simp)
    have hnl : c ≠ '\n' := by
      intro hh; subst hh; simp [cIsSpace] at hcs
    rw [List.cons_append, extractLoop, if_neg hcap, if_neg hnl, if_pos hcs]
    rw [ih (k + 1) true (buf.push c) (by simp at hk ⊢; omega) (fun d hd => hc d (by simp [hd]))]
    simp [String.push]

/-- C7 counterexample: for the 18-character keyword `abcdefghijklmnopqr`
the scanner stops after 16 characters; `q` and `r` are NOT read from the
stream, so the stream is not positioned past the whole keyword (which
would be `"next"` after the separating space, contrary to the claim). -/
theorem c7_counterexample :
    extract_operation "abcdefghijklmnopqr next".data =
      (Operation.Unknown, "abcdefghijklmnop", "qr next".data) ∧
    "qr next".data ≠ "next".data := by
  constructor
  · decide
  · decide

/-- C7 (amended): the directive scanner collects at most 16 characters of
the keyword; for a longer keyword it stops reading after the 16th
character: the collected word is the first 16 characters and everything
beyond the cap stays on the stream (the stream is positioned right after
the 16th character, not past the whole keyword). -/
theorem c7_amended :
    (∀ s : List Char, ((extract_operation s).2.1).length ≤ 16) ∧
    (∀ (cs r : List Char), cs.length = 16 → (∀ c ∈ cs, cIsSpace c = false) →
      extract_operation (cs ++ r) = (classifyOp ⟨cs⟩, ⟨cs⟩, r)) := by
  constructor
  · intro s
    exact extractLoop_buf_le s 0 false "" rfl (by omega)
  · intro cs r h16 hns
    unfold extract_operation
    rw [extractLoop_fill cs 0 false "" r (by omega) hns]
    simp

/-- C7 witness: the amended statement applied to the concrete overlong
keyword input. -/
theorem c7_witness :
    extract_operation ("abcdefghijklmnop".data ++ "qr next".data) =
      (classifyOp ⟨"abcdefghijklmnop".data⟩, ⟨"abcdefghijklmnop".data⟩, "qr next".data) :=
  c7_amended.2 "abcdefghijklmnop".data "qr next".data (by decide) (by decide)

/-- C10 (confirmed): an `elif`/`else`/`endif` reaching the top-level
`consume` falls into the default (unknown-directive) case: with output
active it echoes the marker and the collected keyword and processing
continues normally on the rest of the stream. -/
theorem c10_confirmed (fuel : Nat) (s : List Char) (ctx : Context) (op : Operation)
    (name : String) (rest : List Char)
    (h : extract_operation s = (op, name, rest))
    (hop : op = Operation.Elif ∨ op = Operation.Else ∨ op = Operation.Endif) :
    consume fuel (PP_START :: s) ctx false =
      (consume fuel rest ctx false).prep (PP_START :: name.data) := by
  rcases hop with h1 | h1 | h1 <;> subst h1 <;> cases fuel <;> simp [consume, h]

/-- C10 witness: `#endif Y` at top level echoes `#endif` and scans on. -/
theorem c10_witness :
    consume 1 (PP_START :: "endif Y".data) ⟨[], 0⟩ false =
      (consume 1 "Y".data ⟨[], 0⟩ false).prep (PP_START :: "endif".data) :=
  c10_confirmed 1 "endif Y".data ⟨[], 0⟩ Operation.Endif "endif" "Y".data (by decide)
    (Or.inr (Or.inr rfl))

/-- C8 (confirmed): on marker-free text the top-level scan is the
identity — every character is copied to the output unchanged and the
context is untouched, for every fuel and every initial tag set. -/
theorem c8_confirmed (text : List Char) (fuel : Nat) (ctx : Context)
    (h : ∀ c ∈ text, c ≠ PP_START) :
    consume fuel text ctx false = .ok text ctx := by
  induction text generalizing fuel with
  | nil => simp [consume]
  | cons c s ih =>
    have hc : c ≠ PP_START := h c (List.mem_cons_self c s)
    have h2 : ∀ d ∈ s, d ≠ PP_START := fun d hd => h d (List.mem_cons_of_mem c hd)
    cases fuel with
    | zero => simp [consume, hc, ih 0 h2, Res.prep]
    | succ f => simp [consume, hc, ih (f + 1) h2, Res.prep]

/-- C8 witness: a concrete marker-free text round-trips. -/
theorem c8_witness :
    consume 5 "hello world\n".data ⟨["x"], 0⟩ false = .ok "hello world\n".data ⟨["x"], 0⟩ :=
  c8_confirmed "hello world\n".data 5 ⟨["x"], 0⟩ (by decide)

/-- With the stream exhausted inside an open conditional block,
`consume_next` keeps returning `true` without updating `cur`, so the
`while` loop of `handle_if` never sees `Endif` and spins forever. -/
theorem if_loop_nil_spin (f : Nat) : ∀ (ctx : Context) (ign cond once : Bool) (cur : Operation),
    cur ≠ Operation.Endif → if_loop f [] ctx ign cond once cur = .spin [] := by
  induction f with
  | zero => intro ctx ign cond once cur h; simp [if_loop]
  | succ g ih =>
    intro ctx ign cond once cur h
    have hc0 : handle_condition [] ctx = (false, []) := by
      simp [handle_condition_eq, lexLine, lexLoop, flushTag]
    simp [if_loop, consume_next, h, hc0, ih _ _ _ _ _ h, Res.prep_nil]

/-- C9 (code bug): an `#if` block never closed by `#endif` makes the run
diverge — for every amount of fuel the interpreter still spins, because
`consume_next` returns `true` at end of stream without setting `next`.
The claim that every finite input terminates is right about the intent and
wrong about the code. -/
theorem c9_code_bug (fuel : Nat) (ctx : Context) :
    consume fuel "#if A\n".data ctx false = .spin [] := by
  have he : extract_operation "if A\n".data = (.If, "if", "A\n".data) := by decide
  have hc : (handle_condition "A\n".data ctx).2 = [] := by
    rw [handle_condition_eq]
    simp
    decide
  cases fuel with
  | zero => simp [consume, he, PP_START]
  | succ f =>
    cases f with
    | zero => simp [consume, he, handle_if, PP_START]
    | succ g =>
      have hs : ∀ (c2 : Context) (cond : Bool),
          if_loop g [] c2 false cond false Operation.If = .spin [] :=
        fun c2 cond => if_loop_nil_spin g c2 false cond false .If (by decide)
      simp [consume, he, handle_if, hc, hs, PP_START]

/-- Discriminator for the fatal (C++ `return false`) result. -/
def Res.isFatal {α : Type} : Res α → Bool
  | .fatal _ _ _ => true
  | _ => false

/-- Prefixing output does not change the result kind. -/
theorem Res.isFatal_prep {α : Type} (r : Res α) (pre : List Char) :
    (r.prep pre).isFatal = r.isFatal := by
  cases r <;> simp [Res.prep, Res.isFatal]

/-- The `while` loop of `handle_if` swallows the `false` return of
`consume_next` (a fatal error merely exits the loop), so it can never
produce a fatal result itself. -/
theorem if_loop_not_fatal (f : Nat) : ∀ (s : List Char) (ctx : Context)
    (ign cond once : Bool) (cur : Operation),
    (if_loop f s ctx ign cond once cur).isFatal = false := by
  induction f with
  | zero => intro s ctx ign cond once cur; simp [if_loop, Res.isFatal]
  | succ g ih =>
    intro s ctx ign cond once cur
    simp only [if_loop]
    split
    · simp [Res.isFatal]
    · simp [Res.isFatal]
    · split
      · simp [Res.isFatal]
      · split
        · simp [Res.isFatal_prep, ih]
        · split
          · simp [Res.isFatal_prep, ih]
          · simp [Res.isFatal_prep, ih]

/-- C1 counterexample: the condition of `#if (` is a malformed boolean
expression (unmatched parenthesis / unexpected end), yet the run does not
unwind: it reaches the `#endif`, continues, emits the subsequent text `Y`
and reports overall success — further input IS processed and output IS
emitted after the error. -/
theorem c1_counterexample :
    consume 10 "#if (\n#endif\nY".data ⟨[], 0⟩ false = .ok "Y".data ⟨[], 0⟩ := by
  have hc : handle_condition "(\n#endif\nY".data ⟨[], 0⟩ = (false, "#endif\nY".data) := by
    have hl : lexLine "(\n#endif\nY".data = ([Token.ParantheseOpen], "#endif\nY".data) := by
      decide
    rw [handle_condition_eq, hl]
    simp [bcVal_stop, ucVal_cons, ucRest_cons, pcVal_paren_bad, pcRest_paren_bad,
      bcVal_empty, bcRest_empty, curTok]
  have he1 : extract_operation "if (\n#endif\nY".data = (.If, "if", "(\n#endif\nY".data) := by
    decide
  have he2 : extract_operation "endif\nY".data = (.Endif, "endif", "Y".data) := by decide
  simp [consume, consume_next, handle_if, if_loop, Res.prep, he1, he2, hc, PP_START]

/-- C1 (amended): a fatal-labelled parse error inside a conditional block
does not unwind the run.  `handle_condition` has no failure channel (its
boolean is used as the condition's value), and `handle_if` always returns
`true` in C++ — it never produces a fatal result, whatever the stream,
context or inherited ignore flag; only `define`/`undef` errors at the top
level abort the run. -/
theorem c1_amended (fuel : Nat) (s : List Char) (ctx : Context) (ignore : Bool) :
    (handle_if fuel s ctx ignore).isFatal = false := by
  cases fuel with
  | zero => simp [handle_if, Res.isFatal]
  | succ f =>
    simp only [handle_if]
    split
    · simp [Res.isFatal]
    · rename_i heq
      have := if_loop_not_fatal f (if ignore = true then s else (handle_condition s ctx).2)
        ⟨ctx.Tags, ctx.Depth + 1⟩ ignore
        (if ignore = true then false else (handle_condition s ctx).1) false .If
      rw [heq] at this
      simp [Res.isFatal] at this
    · simp [Res.isFatal]

/-- C4 counterexample: for an ignored `#if` whose condition text contains
an embedded `#endif`, the condition text is NOT lexically consumed: the
block terminates at the marker inside the guard text, so the stream ends
up at a different position than in the non-ignored case (where the guard
line is consumed by the expression lexer).  The claim that the stream is
positioned "exactly as in the non-ignored case" is false. -/
theorem c4_counterexample :
    handle_if 5 "^#endif\nINNER\n#endif\nTAIL".data ⟨[], 0⟩ true =
      .ok [] (⟨[], 0⟩, "INNER\n#endif\nTAIL".data) ∧
    handle_if 5 "^#endif\nINNER\n#endif\nTAIL".data ⟨[], 0⟩ false =
      .ok [] (⟨[], 0⟩, "TAIL".data) ∧
    handle_if 5 "^#endif\nINNER\n#endif\nTAIL".data ⟨[], 0⟩ true ≠
      handle_if 5 "^#endif\nINNER\n#endif\nTAIL".data ⟨[], 0⟩ false := by
  have he1 : extract_operation "endif\nINNER\n#endif\nTAIL".data =
      (.Endif, "endif", "INNER\n#endif\nTAIL".data) := by decide
  have he2 : extract_operation "endif\nTAIL".data = (.Endif, "endif", "TAIL".data) := by decide
  have hl : lexLine "^#endif\nINNER\n#endif\nTAIL".data =
      ([Token.Xor, Token.Tag "#endif"], "INNER\n#endif\nTAIL".data) := by decide
  have hc : handle_condition "^#endif\nINNER\n#endif\nTAIL".data ⟨[], 0⟩ =
      (false, "INNER\n#endif\nTAIL".data) := by
    rw [handle_condition_eq, hl]
    simp [bcVal_other, ucVal_cons, ucRest_cons, pcVal_other, pcRest_other, curTok]
  have h1 : handle_if 5 "^#endif\nINNER\n#endif\nTAIL".data ⟨[], 0⟩ true =
      .ok [] (⟨[], 0⟩, "INNER\n#endif\nTAIL".data) := by
    simp [handle_if, if_loop, consume_next, Res.prep, he1, PP_START]
  have h2 : handle_if 5 "^#endif\nINNER\n#endif\nTAIL".data ⟨[], 0⟩ false =
      .ok [] (⟨[], 0⟩, "TAIL".data) := by
    simp [handle_if, if_loop, consume_next, Res.prep, he1, he2, hc, PP_START]
  refine ⟨h1, h2, ?_⟩
  rw [h1, h2]
  simp

/-- C4 (amended): when the enclosing context is ignored, the short-circuit
in `!ignore && handle_condition(in, ctx)` means the expression lexer is
NOT invoked: the guard is taken as `false` and the body loop starts on the
unchanged stream, so the condition text is later consumed as (suppressed)
body content; in the non-ignored case the lexer does consume the guard
line first.  Stated as the exact unfolding of both cases. -/
theorem c4_amended (f : Nat) (s : List Char) (ctx : Context) :
    (handle_if (f + 1) s ctx true =
      match if_loop f s ⟨ctx.Tags, ctx.Depth + 1⟩ true false false .If with
      | .ok out a => .ok out (⟨a.1.Tags, a.1.Depth - 1⟩, a.2)
      | .fatal out c2 s2 => .fatal out c2 s2
      | .spin out => .spin out) ∧
    (handle_if (f + 1) s ctx false =
      match if_loop f (handle_condition s ctx).2 ⟨ctx.Tags, ctx.Depth + 1⟩ false
          (handle_condition s ctx).1 false .If with
      | .ok out a => .ok out (⟨a.1.Tags, a.1.Depth - 1⟩, a.2)
      | .fatal out c2 s2 => .fatal out c2 s2
      | .spin out => .spin out) := by
  constructor <;> simp [handle_if]

/-- C5 counterexample: a `#define` with no tag inside an active `#if`
block reports the error, but `handle_if`'s `while` loop swallows the
`false` return of `consume_next`: the run continues, echoes the now
orphaned `#endif`, emits `TAIL` and reports overall success — it does not
abort and output follows the error. -/
theorem c5_counterexample :
    consume 10 "#if a\n#define \n#endif\nTAIL".data ⟨["a"], 0⟩ false =
      .ok "#endifTAIL".data ⟨["a"], 0⟩ := by
  have he1 : extract_operation "if a\n#define \n#endif\nTAIL".data =
      (.If, "if", "a\n#define \n#endif\nTAIL".data) := by decide
  have hl : lexLine "a\n#define \n#endif\nTAIL".data =
      ([Token.Tag "a"], "#define \n#endif\nTAIL".data) := by decide
  have hc : handle_condition "a\n#define \n#endif\nTAIL".data ⟨["a"], 0⟩ =
      (true, "#define \n#endif\nTAIL".data) := by
    rw [handle_condition_eq, hl]
    simp [bcVal_stop, ucVal_cons, ucRest_cons, pcVal_tag, pcRest_tag, curTok, Context.hasTag]
  have he2 : extract_operation "define \n#endif\nTAIL".data =
      (.Define, "define", "\n#endif\nTAIL".data) := by decide
  have hd : handle_define2 "\n#endif\nTAIL".data ⟨["a"], 1⟩ =
      (none, "#endif\nTAIL".data) := by decide
  have he3 : extract_operation "endif\nTAIL".data = (.Endif, "endif", "TAIL".data) := by decide
  simp [consume, consume_next, handle_if, if_loop, Res.prep, he1, he2, he3, hc, hd, PP_START]

/-- C5 (amended): a `define`/`undef` whose argument is empty is fatal at
the TOP level: `consume` returns the failure result with no further
output.  (Inside a conditional block the failure is swallowed by
`handle_if`, as the counterexample shows.) -/
theorem c5_amended :
    (∀ (fuel : Nat) (s : List Char) (ctx : Context) (name : String) (r : List Char),
      extract_operation s = (Operation.Define, name, r) → (get_tag r).1 = "" →
      consume fuel (PP_START :: s) ctx false = .fatal [] ctx (get_tag r).2) ∧
    (∀ (fuel : Nat) (s : List Char) (ctx : Context) (name : String) (r : List Char),
      extract_operation s = (Operation.Undef, name, r) → (get_tag r).1 = "" →
      consume fuel (PP_START :: s) ctx false = .fatal [] ctx (get_tag r).2) := by
  constructor <;>
    (intro fuel s ctx name r h hget
     cases fuel <;> simp [consume, h, handle_define2, handle_undef2, hget])

/-- C5 witness: `#define` followed by an empty line at the top level
aborts with the fatal result immediately. -/
theorem c5_witness :
    consume 3 (PP_START :: "define \nX".data) ⟨[], 0⟩ false =
      .fatal [] ⟨[], 0⟩ "X".data :=
  c5_amended.1 3 "define \nX".data ⟨[], 0⟩ "define" "\nX".data (by decide) (by decide)

/-- C6 (confirmed): when a body pass returns `Elif` after some branch of
the chain already fired (`once_true || condition`), the loop continues on
the stream exactly as `consume_next` left it — `handle_condition` is not
invoked, no Tag Context lookup happens, the new condition is `false`, and
the guard text is left to be consumed as (suppressed) body content by the
next pass. -/
theorem c6_confirmed (f : Nat) (s s2 : List Char) (ctx ctx2 : Context)
    (ign cond once : Bool) (cur : Operation) (out : List Char)
    (h : consume_next f s ctx (ign || once || !cond) cur = .ok out (ctx2, s2, Operation.Elif))
    (h2 : once || cond = true) :
    if_loop (f + 1) s ctx ign cond once cur =
      (if_loop f s2 ctx2 ign false true Operation.Elif).prep out := by
  simp only [if_loop]
  rw [h]
  simp [h2]
  intro hh1 hh2
  rw [hh1, hh2] at h2
  simp at h2

/-- C6 witness: a chain whose first branch fired (`condition = true`)
reaching `#elif junk`: the loop proceeds with the guard text `junk` still
on the stream and condition `false`. -/
theorem c6_witness :
    if_loop 2 "#elif junk\n#endif\n".data ⟨[], 0⟩ false true false Operation.If =
      (if_loop 1 "junk\n#endif\n".data ⟨[], 0⟩ false false true Operation.Elif).prep [] :=
  c6_confirmed 1 "#elif junk\n#endif\n".data "junk\n#endif\n".data ⟨[], 0⟩ ⟨[], 0⟩
    false true false Operation.If []
    (by
      have he : extract_operation "elif junk\n#endif\n".data =
          (.Elif, "elif", "junk\n#endif\n".data) := by decide
      simp [consume_next, he, PP_START])
    rfl

/-- C2 (confirmed): after one unary term, an `And`/`Or`/`Xor` operator
makes `binary_condition` parse the ENTIRE remaining token stream as one
recursive sub-expression and combine with the operator (right-fold, no
precedence); and concretely `a && b || c` with `a`,`c` defined and `b`
absent evaluates to `true` (`a && (b || c)`). -/
theorem c2_confirmed :
    (∀ (ts tl : List Token) (ctx : Context),
      (unary_condition ts ctx).2.val = Token.And :: tl →
      (binary_condition ts ctx).1 = ((unary_condition ts ctx).1 && (binary_condition tl ctx).1) ∧
      (binary_condition ts ctx).2.val = (binary_condition tl ctx).2.val) ∧
    (∀ (ts tl : List Token) (ctx : Context),
      (unary_condition ts ctx).2.val = Token.Or :: tl →
      (binary_condition ts ctx).1 = ((unary_condition ts ctx).1 || (binary_condition tl ctx).1) ∧
      (binary_condition ts ctx).2.val = (binary_condition tl ctx).2.val) ∧
    (∀ (ts tl : List Token) (ctx : Context),
      (unary_condition ts ctx).2.val = Token.Xor :: tl →
      (binary_condition ts ctx).1 =
        xor (unary_condition ts ctx).1 (binary_condition tl ctx).1 ∧
      (binary_condition ts ctx).2.val = (binary_condition tl ctx).2.val) ∧
    (handle_condition "a && b || c\n".data ⟨["a", "c"], 0⟩).1 = true := by
  refine ⟨?_, ?_, ?_, ?_⟩
  · intro ts tl ctx h
    have hcur : curTok (ucRest ts ctx) = Token.And := by unfold ucRest; rw [h]; rfl
    have h1 := bcVal_and ts ctx hcur
    have h2 := bcRest_and ts ctx hcur
    unfold bcVal ucVal ucRest at h1
    unfold bcRest ucRest at h2
    rw [h] at h1 h2
    simp at h1 h2
    exact ⟨h1, h2⟩
  · intro ts tl ctx h
    have hcur : curTok (ucRest ts ctx) = Token.Or := by unfold ucRest; rw [h]; rfl
    have h1 := bcVal_or ts ctx hcur
    have h2 := bcRest_or ts ctx hcur
    unfold bcVal ucVal ucRest at h1
    unfold bcRest ucRest at h2
    rw [h] at h1 h2
    simp at h1 h2
    exact ⟨h1, h2⟩
  · intro ts tl ctx h
    have hcur : curTok (ucRest ts ctx) = Token.Xor := by unfold ucRest; rw [h]; rfl
    have h1 := bcVal_xor ts ctx hcur
    have h2 := bcRest_xor ts ctx hcur
    unfold bcVal ucVal ucRest at h1
    unfold bcRest ucRest at h2
    rw [h] at h1 h2
    simp at h1 h2
    exact ⟨h1, h2⟩
  · have hl : lexLine "a && b || c\n".data =
        ([Token.Tag "a", Token.And, Token.Tag "b", Token.Or, Token.Tag "c"], []) := by decide
    rw [handle_condition_eq, hl]
    simp [bcVal_and, bcVal_or, bcVal_stop, ucVal_cons, ucRest_cons, pcVal_tag, pcRest_tag,
      curTok, Context.hasTag]

/-- C2 witness: the And-case applied to the concrete token sequence
`x && y` with both tags defined. -/
theorem c2_witness :
    (binary_condition [Token.Tag "x", Token.And, Token.Tag "y"] ⟨["x", "y"], 0⟩).1 =
      ((unary_condition [Token.Tag "x", Token.And, Token.Tag "y"] ⟨["x", "y"], 0⟩).1 &&
        (binary_condition [Token.Tag "y"] ⟨["x", "y"], 0⟩).1) ∧
    (binary_condition [Token.Tag "x", Token.And, Token.Tag "y"] ⟨["x", "y"], 0⟩).2.val =
      (binary_condition [Token.Tag "y"] ⟨["x", "y"], 0⟩).2.val :=
  c2_confirmed.1 [Token.Tag "x", Token.And, Token.Tag "y"] [Token.Tag "y"] ⟨["x", "y"], 0⟩
    (by
      have h1 : ucRest [Token.Tag "x", Token.And, Token.Tag "y"] ⟨["x", "y"], 0⟩ =
          [Token.And, Token.Tag "y"] := by
        rw [ucRest_cons _ _ _ (by decide), pcRest_tag]
      exact h1)

/-- Reading the tag argument: a run of non-whitespace characters followed
by a newline yields exactly those characters, consuming the newline. -/
theorem get_tag_go_line (cs : List Char) : ∀ (st : Bool) (buf : String) (r : List Char),
    (∀ c ∈ cs, cIsSpace c = false) →
    get_tag.go (cs ++ '\n' :: r) st buf = (⟨buf.data ++ cs⟩, r) := by
  induction cs with
  | nil =>
    intro st buf r _
    simp [get_tag.go]
  | cons c cs2 ih =>
    intro st buf r h
    have hcs : cIsSpace c = false := h c (List.mem_cons_self c cs2)
    have hnl : c ≠ '\n' := by intro hh; subst hh; simp [cIsSpace] at hcs
    rw [List.cons_append, get_tag.go]
    simp only [if_neg hnl, hcs, if_pos]
    rw [ih true (buf.push c) r (fun d hd => h d (List.mem_cons_of_mem c hd))]
    simp [String.push]

/-- `get_tag` on a well-formed tag line. -/
theorem get_tag_line (t : String) (r : List Char)
    (h : ∀ c ∈ t.data, cIsSpace c = false) :
    get_tag (t.data ++ '\n' :: r) = (t, r) := by
  unfold get_tag
  rw [get_tag_go_line t.data false "" r h]
  simp

/-- Scanning the keyword `elif` followed by a space positions the stream
right after the space. -/
theorem extract_elif (r : List Char) :
    extract_operation ('e' :: 'l' :: 'i' :: 'f' :: ' ' :: r) = (.Elif, "elif", r) := by
  simp [extract_operation, extractLoop, cIsSpace, classifyOp]
  decide

/-- Scanning the keyword `else` followed by a newline consumes the newline. -/
theorem extract_else (r : List Char) :
    extract_operation ('e' :: 'l' :: 's' :: 'e' :: '\n' :: r) = (.Else, "else", r) := by
  simp [extract_operation, extractLoop, cIsSpace, classifyOp]
  decide

/-- Scanning the keyword `endif` followed by a newline consumes the newline. -/
theorem extract_endif (r : List Char) :
    extract_operation ('e' :: 'n' :: 'd' :: 'i' :: 'f' :: '\n' :: r) = (.Endif, "endif", r) := by
  simp [extract_operation, extractLoop, cIsSpace, classifyOp]
  decide

/-- Scanning the keyword `define` followed by a space. -/
theorem extract_define (r : List Char) :
    extract_operation ('d' :: 'e' :: 'f' :: 'i' :: 'n' :: 'e' :: ' ' :: r) =
      (.Define, "define", r) := by
  simp [extract_operation, extractLoop, cIsSpace, classifyOp]
  decide

/-- Scanning the keyword `undef` followed by a space. -/
theorem extract_undef (r : List Char) :
    extract_operation ('u' :: 'n' :: 'd' :: 'e' :: 'f' :: ' ' :: r) =
      (.Undef, "undef", r) := by
  simp [extract_operation, extractLoop, cIsSpace, classifyOp]
  decide

/-- One-step unfolding of the lexer loop on a cons cell (the generated
equations are split by the look-ahead match, this recombines them). -/
theorem lexLoop_cons (c : Char) (rest : List Char) (buf : String) (acc : List Token) :
    lexLoop (c :: rest) buf acc =
      (if c = '\n' then (flushTag buf acc, rest)
      else if cIsSpace c then lexLoop rest "" (flushTag buf acc)
      else if c = '!' then lexLoop rest "" (flushTag buf acc ++ [Token.Not])
      else if c = '^' then lexLoop rest "" (flushTag buf acc ++ [Token.Xor])
      else if c = '(' then lexLoop rest "" (flushTag buf acc ++ [Token.ParantheseOpen])
      else if c = ')' then lexLoop rest "" (flushTag buf acc ++ [Token.ParantheseClose])
      else if c = '&' then
        match rest with
        | [] => (flushTag buf acc ++ [Token.And], [])
        | d :: rest2 =>
          if d = '&' then lexLoop rest2 "" (flushTag buf acc ++ [Token.And])
          else lexLoop (d :: rest2) "" (flushTag buf acc ++ [Token.And])
      else if c = '|' then
        match rest with
        | [] => (flushTag buf acc ++ [Token.Or], [])
        | d :: rest2 =>
          if d = '|' then lexLoop rest2 "" (flushTag buf acc ++ [Token.Or])
          else lexLoop (d :: rest2) "" (flushTag buf acc ++ [Token.Or])
      else lexLoop rest (buf.push c) acc) := by
  cases rest <;> rfl

/-- The lexer consumes exactly one line: on `g ++ '\n' :: r` with `g`
newline-free it produces the same tokens as on the line alone and leaves
`r` on the stream. -/
theorem lexLoop_line (n : Nat) : ∀ (g : List Char), g.length ≤ n →
    ∀ (buf : String) (acc : List Token) (r : List Char),
    (∀ c ∈ g, c ≠ '\n') →
    lexLoop (g ++ '\n' :: r) buf acc = ((lexLoop (g ++ ['\n']) buf acc).1, r) := by
  induction n with
  | zero =>
    intro g hg buf acc r _
    have hge : g = [] := List.eq_nil_of_length_eq_zero (Nat.le_zero.mp hg)
    subst hge
    simp [lexLoop_cons, lexLoop]
  | succ m ih =>
    intro g hg buf acc r h
    match g with
    | [] => simp [lexLoop_cons, lexLoop]
    | c :: g1 =>
      have hnl : c ≠ '\n' := h c (List.mem_cons_self _ _)
      have hg1 : ∀ d ∈ g1, d ≠ '\n' := fun d hd => h d (List.mem_cons_of_mem _ hd)
      have hlen : g1.length ≤ m := by simp at hg; omega
      rw [List.cons_append, List.cons_append, lexLoop_cons, lexLoop_cons]
      rw [if_neg hnl, if_neg hnl]
      by_cases hsp : cIsSpace c = true
      · rw [if_pos hsp, if_pos hsp]
        exact ih g1 hlen "" (flushTag buf acc) r hg1
      rw [if_neg hsp, if_neg hsp]
      by_cases hx : c = '!'
      · rw [if_pos hx, if_pos hx]
        exact ih g1 hlen "" (flushTag buf acc ++ [Token.Not]) r hg1
      rw [if_neg hx, if_neg hx]
      by_cases hy : c = '^'
      · rw [if_pos hy, if_pos hy]
        exact ih g1 hlen "" (flushTag buf acc ++ [Token.Xor]) r hg1
      rw [if_neg hy, if_neg hy]
      by_cases hz : c = '('
      · rw [if_pos hz, if_pos hz]
        exact ih g1 hlen "" (flushTag buf acc ++ [Token.ParantheseOpen]) r hg1
      rw [if_neg hz, if_neg hz]
      by_cases hw : c = ')'
      · rw [if_pos hw, if_pos hw]
        exact ih g1 hlen "" (flushTag buf acc ++ [Token.ParantheseClose]) r hg1
      rw [if_neg hw, if_neg hw]
      by_cases ha : c = '&'
      · rw [if_pos ha, if_pos ha]
        cases g1 with
        | nil => simp [lexLoop_cons, lexLoop, flushTag]
        | cons d g2 =>
          simp only [List.cons_append]
          by_cases hd : d = '&'
          · simp only [hd, if_pos rfl]
            exact ih g2 (by simp at hlen; omega) "" (flushTag buf acc ++ [Token.And]) r
              (fun e he => hg1 e (by simp [he]))
          · simp only [if_neg hd]
            exact ih (d :: g2) hlen "" (flushTag buf acc ++ [Token.And]) r hg1
      rw [if_neg ha, if_neg ha]
      by_cases ho : c = '|'
      · rw [if_pos ho, if_pos ho]
        cases g1 with
        | nil => simp [lexLoop_cons, lexLoop, flushTag]
        | cons d g2 =>
          simp only [List.cons_append]
          by_cases hd : d = '|'
          · simp only [hd, if_pos rfl]
            exact ih g2 (by simp at hlen; omega) "" (flushTag buf acc ++ [Token.Or]) r
              (fun e he => hg1 e (by simp [he]))
          · simp only [if_neg hd]
            exact ih (d :: g2) hlen "" (flushTag buf acc ++ [Token.Or]) r hg1
      rw [if_neg ho, if_neg ho]
      exact ih g1 hlen (buf.push c) acc r hg1

/-- `lexLine` consumes exactly one line. -/
theorem lexLine_split (g : List Char) (r : List Char) (h : ∀ c ∈ g, c ≠ '\n') :
    lexLine (g ++ '\n' :: r) = ((lexLine (g ++ ['\n'])).1, r) :=
  lexLoop_line g.length g (Nat.le_refl _) "" [] r h

/-- The expression parser/evaluator only consults the tag set of the
context, never its depth counter: all components agree for two contexts
with the same tags. -/
theorem parser_tags_only (n : Nat) : ∀ (ts : List Token) (tg : List String) (d1 d2 : Nat),
    ts.length ≤ n →
    pcVal ts ⟨tg, d1⟩ = pcVal ts ⟨tg, d2⟩ ∧
    pcRest ts ⟨tg, d1⟩ = pcRest ts ⟨tg, d2⟩ ∧
    ucVal ts ⟨tg, d1⟩ = ucVal ts ⟨tg, d2⟩ ∧
    ucRest ts ⟨tg, d1⟩ = ucRest ts ⟨tg, d2⟩ ∧
    bcVal ts ⟨tg, d1⟩ = bcVal ts ⟨tg, d2⟩ ∧
    bcRest ts ⟨tg, d1⟩ = bcRest ts ⟨tg, d2⟩ := by
  induction n with
  | zero =>
    intro ts tg d1 d2 hlen
    have hts : ts = [] := List.eq_nil_of_length_eq_zero (Nat.le_zero.mp hlen)
    subst hts
    exact ⟨by rw [pcVal_nil, pcVal_nil], by rw [pcRest_nil, pcRest_nil],
      by rw [ucVal_nil, ucVal_nil, pcVal_nil, pcVal_nil],
      by rw [ucRest_nil, ucRest_nil, pcRest_nil, pcRest_nil],
      by rw [bcVal_empty, bcVal_empty], by rw [bcRest_empty, bcRest_empty]⟩
  | succ m ih =>
    intro ts tg d1 d2 hlen
    have hp : pcVal ts ⟨tg, d1⟩ = pcVal ts ⟨tg, d2⟩ ∧
        pcRest ts ⟨tg, d1⟩ = pcRest ts ⟨tg, d2⟩ := by
      match ts with
      | [] => exact ⟨by rw [pcVal_nil, pcVal_nil], by rw [pcRest_nil, pcRest_nil]⟩
      | Token.ParantheseOpen :: tl =>
        have hb := ih tl tg d1 d2 (by simp at hlen; omega)
        by_cases hcp : curTok (bcRest tl ⟨tg, d1⟩) = Token.ParantheseClose
        · have hcp2 : curTok (bcRest tl ⟨tg, d2⟩) = Token.ParantheseClose := by
            rw [← hb.2.2.2.2.2]; exact hcp
          exact ⟨by rw [pcVal_paren_ok _ _ hcp, pcVal_paren_ok _ _ hcp2, hb.2.2.2.2.1],
            by rw [pcRest_paren_ok _ _ hcp, pcRest_paren_ok _ _ hcp2, hb.2.2.2.2.2]⟩
        · have hcp2 : ¬ curTok (bcRest tl ⟨tg, d2⟩) = Token.ParantheseClose := by
            rw [← hb.2.2.2.2.2]; exact hcp
          exact ⟨by rw [pcVal_paren_bad _ _ hcp, pcVal_paren_bad _ _ hcp2],
            by rw [pcRest_paren_bad _ _ hcp, pcRest_paren_bad _ _ hcp2, hb.2.2.2.2.2]⟩
      | Token.Tag name :: tl =>
        exact ⟨by rw [pcVal_tag, pcVal_tag]; simp [Context.hasTag],
          by rw [pcRest_tag, pcRest_tag]⟩
      | Token.ParantheseClose :: tl =>
        exact ⟨by rw [pcVal_other _ _ _ (by simp) (by simp), pcVal_other _ _ _ (by simp) (by simp)],
          by rw [pcRest_other _ _ _ (by simp) (by simp), pcRest_other _ _ _ (by simp) (by simp)]⟩
      | Token.And :: tl =>
        exact ⟨by rw [pcVal_other _ _ _ (by simp) (by simp), pcVal_other _ _ _ (by simp) (by simp)],
          by rw [pcRest_other _ _ _ (by simp) (by simp), pcRest_other _ _ _ (by simp) (by simp)]⟩
      | Token.Or :: tl =>
        exact ⟨by rw [pcVal_other _ _ _ (by simp) (by simp), pcVal_other _ _ _ (by simp) (by simp)],
          by rw [pcRest_other _ _ _ (by simp) (by simp), pcRest_other _ _ _ (by simp) (by simp)]⟩
      | Token.Xor :: tl =>
        exact ⟨by rw [pcVal_other _ _ _ (by simp) (by simp), pcVal_other _ _ _ (by simp) (by simp)],
          by rw [pcRest_other _ _ _ (by simp) (by simp), pcRest_other _ _ _ (by simp) (by simp)]⟩
      | Token.Not :: tl =>
        exact ⟨by rw [pcVal_other _ _ _ (by simp) (by simp), pcVal_other _ _ _ (by simp) (by simp)],
          by rw [pcRest_other _ _ _ (by simp) (by simp), pcRest_other _ _ _ (by simp) (by simp)]⟩
      | Token.EOS :: tl =>
        exact ⟨by rw [pcVal_other _ _ _ (by simp) (by simp), pcVal_other _ _ _ (by simp) (by simp)],
          by rw [pcRest_other _ _ _ (by simp) (by simp), pcRest_other _ _ _ (by simp) (by simp)]⟩
    have hu : ucVal ts ⟨tg, d1⟩ = ucVal ts ⟨tg, d2⟩ ∧
        ucRest ts ⟨tg, d1⟩ = ucRest ts ⟨tg, d2⟩ := by
      match ts with
      | [] => exact ⟨by rw [ucVal_nil, ucVal_nil]; exact hp.1,
          by rw [ucRest_nil, ucRest_nil]; exact hp.2⟩
      | Token.Not :: tl =>
        have h2 := ih tl tg d1 d2 (by simp at hlen; omega)
        exact ⟨by rw [ucVal_not, ucVal_not, h2.2.2.1],
          by rw [ucRest_not, ucRest_not, h2.2.2.2.1]⟩
      | Token.Tag name :: tl =>
        exact ⟨by rw [ucVal_cons _ _ _ (by simp), ucVal_cons _ _ _ (by simp)]; exact hp.1,
          by rw [ucRest_cons _ _ _ (by simp), ucRest_cons _ _ _ (by simp)]; exact hp.2⟩
      | Token.ParantheseOpen :: tl =>
        exact ⟨by rw [ucVal_cons _ _ _ (by simp), ucVal_cons _ _ _ (by simp)]; exact hp.1,
          by rw [ucRest_cons _ _ _ (by simp), ucRest_cons _ _ _ (by simp)]; exact hp.2⟩
      | Token.ParantheseClose :: tl =>
        exact ⟨by rw [ucVal_cons _ _ _ (by simp), ucVal_cons _ _ _ (by simp)]; exact hp.1,
          by rw [ucRest_cons _ _ _ (by simp), ucRest_cons _ _ _ (by simp)]; exact hp.2⟩
      | Token.And :: tl =>
        exact ⟨by rw [ucVal_cons _ _ _ (by simp), ucVal_cons _ _ _ (by simp)]; exact hp.1,
          by rw [ucRest_cons _ _ _ (by simp), ucRest_cons _ _ _ (by simp)]; exact hp.2⟩
      | Token.Or :: tl =>
        exact ⟨by rw [ucVal_cons _ _ _ (by simp), ucVal_cons _ _ _ (by simp)]; exact hp.1,
          by rw [ucRest_cons _ _ _ (by simp), ucRest_cons _ _ _ (by simp)]; exact hp.2⟩
      | Token.Xor :: tl =>
        exact ⟨by rw [ucVal_cons _ _ _ (by simp), ucVal_cons _ _ _ (by simp)]; exact hp.1,
          by rw [ucRest_cons _ _ _ (by simp), ucRest_cons _ _ _ (by simp)]; exact hp.2⟩
      | Token.EOS :: tl =>
        exact ⟨by rw [ucVal_cons _ _ _ (by simp), ucVal_cons _ _ _ (by simp)]; exact hp.1,
          by rw [ucRest_cons _ _ _ (by simp), ucRest_cons _ _ _ (by simp)]; exact hp.2⟩
    refine ⟨hp.1, hp.2, hu.1, hu.2, ?_, ?_⟩
    all_goals
      have hle := (unary_condition ts (⟨tg, d1⟩ : Context)).2.property
      by_cases h1 : curTok (ucRest ts ⟨tg, d1⟩) = Token.EOS ∨
          curTok (ucRest ts ⟨tg, d1⟩) = Token.ParantheseClose
      · have h1b : curTok (ucRest ts ⟨tg, d2⟩) = Token.EOS ∨
            curTok (ucRest ts ⟨tg, d2⟩) = Token.ParantheseClose := by rw [← hu.2]; exact h1
        first
          | (rw [bcVal_stop _ _ h1, bcVal_stop _ _ h1b]; exact hu.1)
          | (rw [bcRest_stop _ _ h1, bcRest_stop _ _ h1b, hu.2])
      · have h1b : ¬ (curTok (ucRest ts ⟨tg, d2⟩) = Token.EOS ∨
            curTok (ucRest ts ⟨tg, d2⟩) = Token.ParantheseClose) := by rw [← hu.2]; exact h1
        have hne : ucRest ts ⟨tg, d1⟩ ≠ [] := by
          intro hh; rw [hh] at h1; simp [curTok] at h1
        have hlt : (ucRest ts ⟨tg, d1⟩).tail.length ≤ m := by
          have : (ucRest ts ⟨tg, d1⟩).length ≤ ts.length := hle
          cases hv : ucRest ts ⟨tg, d1⟩ with
          | nil => exact absurd hv hne
          | cons a b => rw [hv] at this; simp at this ⊢; omega
        have hsub := ih ((ucRest ts ⟨tg, d1⟩).tail) tg d1 d2 hlt
        by_cases h2 : curTok (ucRest ts ⟨tg, d1⟩) = Token.And
        · have h2b : curTok (ucRest ts ⟨tg, d2⟩) = Token.And := by rw [← hu.2]; exact h2
          first
            | (rw [bcVal_and _ _ h2, bcVal_and _ _ h2b, hu.1, hu.2, ← hu.2, hsub.2.2.2.2.1, hu.2])
            | (rw [bcRest_and _ _ h2, bcRest_and _ _ h2b, ← hu.2, hsub.2.2.2.2.2, hu.2])
        by_cases h3 : curTok (ucRest ts ⟨tg, d1⟩) = Token.Or
        · have h3b : curTok (ucRest ts ⟨tg, d2⟩) = Token.Or := by rw [← hu.2]; exact h3
          first
            | (rw [bcVal_or _ _ h3, bcVal_or _ _ h3b, hu.1, hu.2, ← hu.2, hsub.2.2.2.2.1, hu.2])
            | (rw [bcRest_or _ _ h3, bcRest_or _ _ h3b, ← hu.2, hsub.2.2.2.2.2, hu.2])
        by_cases h4 : curTok (ucRest ts ⟨tg, d1⟩) = Token.Xor
        · have h4b : curTok (ucRest ts ⟨tg, d2⟩) = Token.Xor := by rw [← hu.2]; exact h4
          first
            | (rw [bcVal_xor _ _ h4, bcVal_xor _ _ h4b, hu.1, hu.2, ← hu.2, hsub.2.2.2.2.1, hu.2])
            | (rw [bcRest_xor _ _ h4, bcRest_xor _ _ h4b, ← hu.2, hsub.2.2.2.2.2, hu.2])
        have h2b : ¬ curTok (ucRest ts ⟨tg, d2⟩) = Token.And := by rw [← hu.2]; exact h2
        have h3b : ¬ curTok (ucRest ts ⟨tg, d2⟩) = Token.Or := by rw [← hu.2]; exact h3
        have h4b : ¬ curTok (ucRest ts ⟨tg, d2⟩) = Token.Xor := by rw [← hu.2]; exact h4
        have h5 : ¬ curTok (ucRest ts ⟨tg, d1⟩) = Token.EOS := fun hh => h1 (Or.inl hh)
        have h6 : ¬ curTok (ucRest ts ⟨tg, d1⟩) = Token.ParantheseClose := fun hh => h1 (Or.inr hh)
        have h5b : ¬ curTok (ucRest ts ⟨tg, d2⟩) = Token.EOS := by rw [← hu.2]; exact h5
        have h6b : ¬ curTok (ucRest ts ⟨tg, d2⟩) = Token.ParantheseClose := by rw [← hu.2]; exact h6
        first
          | (rw [bcVal_other _ _ h5 h6 h2 h3 h4, bcVal_other _ _ h5b h6b h2b h3b h4b])
          | (rw [bcRest_other _ _ h5 h6 h2 h3 h4, bcRest_other _ _ h5b h6b h2b h3b h4b]; exact hu.2)

/-- Boolean value of a guard line, as the code computes it (the depth of
the context is irrelevant by `parser_tags_only`, so only tags appear). -/
def evalGuardT (g : String) (tags : List String) : Bool :=
  (handle_condition (g.data ++ ['\n']) ⟨tags, 0⟩).1

/-- `handle_condition` on a newline-terminated guard line: consumes
exactly the line and evaluates the guard against the tag set. -/
theorem handle_condition_guard (g : String) (tgs : List String) (d : Nat) (r : List Char)
    (h : ∀ c ∈ g.data, c ≠ '\n') :
    handle_condition (g.data ++ '\n' :: r) ⟨tgs, d⟩ = (evalGuardT g tgs, r) := by
  rw [handle_condition_eq, lexLine_split g.data r h]
  unfold evalGuardT
  rw [handle_condition_eq]
  by_cases he : (lexLine (g.data ++ ['\n'])).1 = []
  · simp [he]
  · simp only [if_neg he]
    have hq := (parser_tags_only ((lexLine (g.data ++ ['\n'])).1).length
      (lexLine (g.data ++ ['\n'])).1 tgs d 0 (Nat.le_refl _)).2.2.2.2.1
    rw [hq]

/-- Body items of a conditional branch: literal marker-free text, or a
`#define`/`#undef` directive line. -/
inductive Item where
  | text : String → Item
  | defineTag : String → Item
  | undefTag : String → Item
deriving DecidableEq, Repr

/-- Input rendering of one item. -/
def renderItem : Item → List Char
  | .text s => s.data
  | .defineTag t => PP_START :: ('d' :: 'e' :: 'f' :: 'i' :: 'n' :: 'e' :: ' ' :: (t.data ++ ['\n']))
  | .undefTag t => PP_START :: ('u' :: 'n' :: 'd' :: 'e' :: 'f' :: ' ' :: (t.data ++ ['\n']))

/-- Input rendering of a body. -/
def renderItems : List Item → List Char
  | [] => []
  | i :: is => renderItem i ++ renderItems is

/-- Output produced by one item when the branch is active. -/
def outItem : Item → List Char
  | .text s => s.data
  | _ => []

/-- Output produced by a body when the branch is active. -/
def outItems : List Item → List Char
  | [] => []
  | i :: is => outItem i ++ outItems is

/-- Effect of one item on the tag set when the branch is active. -/
def applyItem (tags : List String) : Item → List String
  | .text _ => tags
  | .defineTag t => tags.insert t
  | .undefTag t => tags.erase t

/-- Effect of a body on the tag set when the branch is active. -/
def applyItems : List String → List Item → List String
  | tags, [] => tags
  | tags, i :: is => applyItems (applyItem tags i) is

/-- Marker-free literal text. -/
def GoodText (s : String) : Prop := ∀ c ∈ s.data, c ≠ PP_START

/-- A tag argument the reader accepts in one line: non-empty, no
whitespace, no marker. -/
def GoodTag (t : String) : Prop :=
  t ≠ "" ∧ ∀ c ∈ t.data, cIsSpace c = false ∧ c ≠ PP_START

/-- Well-formedness of one item. -/
def GoodItem : Item → Prop
  | .text s => GoodText s
  | .defineTag t => GoodTag t
  | .undefTag t => GoodTag t

/-- Well-formedness of a body. -/
def GoodItems (l : List Item) : Prop := ∀ i ∈ l, GoodItem i

/-- A guard line: no marker, no newline. -/
def GoodGuard (g : String) : Prop := ∀ c ∈ g.data, c ≠ PP_START ∧ c ≠ '\n'

/-- One `elif` branch of a chain. -/
structure Branch where
  guard : String
  body : List Item
deriving Repr

/-- Well-formedness of the `elif` branches. -/
def GoodElifs (l : List Branch) : Prop :=
  ∀ e ∈ l, GoodGuard e.guard ∧ GoodItems e.body

/-- Well-formedness of the optional `else` body. -/
def GoodEls : Option (List Item) → Prop
  | none => True
  | some b => GoodItems b

/-- Input rendering of the `elif` branches. -/
def renderElifs : List Branch → List Char
  | [] => []
  | e :: es =>
    PP_START :: 'e' :: 'l' :: 'i' :: 'f' :: ' ' ::
      (e.guard.data ++ '\n' :: (renderItems e.body ++ renderElifs es))

/-- Input rendering of the optional `else` part. -/
def renderElse : Option (List Item) → List Char
  | none => []
  | some b => PP_START :: 'e' :: 'l' :: 's' :: 'e' :: '\n' :: renderItems b

/-- The terminating `#endif` line. -/
def renderEndif : List Char := PP_START :: 'e' :: 'n' :: 'd' :: 'i' :: 'f' :: '\n' :: []

/-- Number of `consume_next` passes the loop performs on a chain. -/
def chainPasses : List Branch → Option (List Item) → Nat
  | [], none => 1
  | [], some _ => 2
  | _ :: es, els => chainPasses es els + 1

/-- The body selected among the `elif`/`else` branches: first true guard,
else the catch-all, else nothing. -/
def selectFrom (tags : List String) : List Branch → Option (List Item) → List Item
  | [], none => []
  | [], some b => b
  | e :: es, els => if evalGuardT e.guard tags then e.body else selectFrom tags es els

/-- The branch body an `if`-chain emits: the `if` body on a true guard,
otherwise the first true `elif` (in order), otherwise the `else` body. -/
def chainSelect (tags : List String) (g0 : String) (b0 : List Item)
    (elifs : List Branch) (els : Option (List Item)) : List Item :=
  if evalGuardT g0 tags then b0 else selectFrom tags elifs els

/-- The context after an active body: defines/undefs applied in order. -/
def applyCtx (ctx : Context) (items : List Item) : Context :=
  ⟨applyItems ctx.Tags items, ctx.Depth⟩

/-- Scanning marker-free characters with output suppressed: nothing is
emitted, nothing changes. -/
theorem consume_next_chars_ign (cs : List Char) : ∀ (f : Nat) (rest : List Char)
    (ctx : Context) (cur : Operation), (∀ c ∈ cs, c ≠ PP_START) →
    consume_next f (cs ++ rest) ctx true cur = consume_next f rest ctx true cur := by
  induction cs with
  | nil => intro f rest ctx cur _; simp
  | cons c cs2 ih =>
    intro f rest ctx cur h
    have hc : c ≠ PP_START := h c (List.mem_cons_self _ _)
    have h2 : ∀ d ∈ cs2, d ≠ PP_START := fun d hd => h d (List.mem_cons_of_mem _ hd)
    have ihs := ih f rest ctx cur h2
    cases f <;> simp [consume_next, hc, ihs]

/-- Scanning marker-free characters with output active: the characters are
copied to the output and nothing else changes. -/
theorem consume_next_chars_act (cs : List Char) : ∀ (f : Nat) (rest : List Char)
    (ctx : Context) (cur : Operation), (∀ c ∈ cs, c ≠ PP_START) →
    consume_next f (cs ++ rest) ctx false cur =
      (consume_next f rest ctx false cur).prep cs := by
  induction cs with
  | nil => intro f rest ctx cur _; simp [Res.prep_nil]
  | cons c cs2 ih =>
    intro f rest ctx cur h
    have hc : c ≠ PP_START := h c (List.mem_cons_self _ _)
    have h2 : ∀ d ∈ cs2, d ≠ PP_START := fun d hd => h d (List.mem_cons_of_mem _ hd)
    have ihs := ih f rest ctx cur h2
    cases f <;> simp [consume_next, hc, ihs, Res.prep_prep]

/-- A body scan pass over rendered items with output suppressed: `define`
and `undef` are skipped entirely (their argument text is scanned as plain
suppressed characters), the Tag Context is not mutated and no output is
emitted. -/
theorem consume_next_items_ign (items : List Item) : ∀ (f : Nat) (rest : List Char)
    (ctx : Context) (cur : Operation), GoodItems items →
    consume_next f (renderItems items ++ rest) ctx true cur =
      consume_next f rest ctx true cur := by
  induction items with
  | nil => intro f rest ctx cur _; simp [renderItems]
  | cons i is ih =>
    intro f rest ctx cur h
    have hi : GoodItem i := h i (List.mem_cons_self _ _)
    have h2 : GoodItems is := fun j hj => h j (List.mem_cons_of_mem _ hj)
    have ihs := ih f rest ctx cur h2
    match i with
    | .text s =>
      have ht : ∀ c ∈ s.data, c ≠ PP_START := hi
      simp only [renderItems, renderItem, List.append_assoc]
      rw [consume_next_chars_ign s.data f _ ctx cur ht, ihs]
    | .defineTag t =>
      have ht : ∀ c ∈ t.data ++ ['\n'], c ≠ PP_START := by
        intro c hc
        rcases List.mem_append.mp hc with hc1 | hc1
        · exact (hi.2 c hc1).2
        · simp at hc1; subst hc1; decide
      simp only [renderItems, renderItem, List.append_assoc, List.cons_append,
        List.nil_append]
      have hstep : ∀ (R : List Char), consume_next f
          (PP_START :: 'd' :: 'e' :: 'f' :: 'i' :: 'n' :: 'e' :: ' ' :: R) ctx true cur =
          consume_next f R ctx true cur := by
        intro R
        cases f <;> simp [consume_next, extract_define]
      rw [hstep, List.append_cons, consume_next_chars_ign (t.data ++ ['\n']) f _ ctx cur ht]
      exact ihs
    | .undefTag t =>
      have ht : ∀ c ∈ t.data ++ ['\n'], c ≠ PP_START := by
        intro c hc
        rcases List.mem_append.mp hc with hc1 | hc1
        · exact (hi.2 c hc1).2
        · simp at hc1; subst hc1; decide
      simp only [renderItems, renderItem, List.append_assoc, List.cons_append,
        List.nil_append]
      have hstep : ∀ (R : List Char), consume_next f
          (PP_START :: 'u' :: 'n' :: 'd' :: 'e' :: 'f' :: ' ' :: R) ctx true cur =
          consume_next f R ctx true cur := by
        intro R
        cases f <;> simp [consume_next, extract_undef]
      rw [hstep, List.append_cons, consume_next_chars_ign (t.data ++ ['\n']) f _ ctx cur ht]
      exact ihs

/-- A body scan pass over rendered items with output active: the text is
emitted, each `define`/`undef` mutates the Tag Context in order, and the
scan proceeds past the body. -/
theorem consume_next_items_act (items : List Item) : ∀ (f : Nat) (rest : List Char)
    (ctx : Context) (cur : Operation), GoodItems items →
    consume_next f (renderItems items ++ rest) ctx false cur =
      (consume_next f rest (applyCtx ctx items) false cur).prep (outItems items) := by
  induction items with
  | nil =>
    intro f rest ctx cur _
    simp [renderItems, outItems, applyCtx, applyItems, Res.prep_nil]
  | cons i is ih =>
    intro f rest ctx cur h
    have hi : GoodItem i := h i (List.mem_cons_self _ _)
    have h2 : GoodItems is := fun j hj => h j (List.mem_cons_of_mem _ hj)
    match i with
    | .text s =>
      have ht : ∀ c ∈ s.data, c ≠ PP_START := hi
      have ihs := ih f rest ctx cur h2
      simp only [renderItems, renderItem, List.append_assoc]
      rw [consume_next_chars_act s.data f _ ctx cur ht, ihs]
      simp [outItems, outItem, applyCtx, applyItems, applyItem, Res.prep_prep]
    | .defineTag t =>
      have hne : t ≠ "" := hi.1
      have hns : ∀ c ∈ t.data, cIsSpace c = false := fun c hc => (hi.2 c hc).1
      have hgt : get_tag (t.data ++ '\n' :: (renderItems is ++ rest)) =
          (t, renderItems is ++ rest) := get_tag_line t _ hns
      have ihs := ih f (rest) (⟨ctx.Tags.insert t, ctx.Depth⟩) cur h2
      simp only [renderItems, renderItem, List.append_assoc, List.cons_append,
        List.nil_append]
      have hstep : consume_next f
          (PP_START :: 'd' :: 'e' :: 'f' :: 'i' :: 'n' :: 'e' :: ' ' ::
            (t.data ++ '\n' :: (renderItems is ++ rest))) ctx false cur =
          consume_next f (renderItems is ++ rest) ⟨ctx.Tags.insert t, ctx.Depth⟩ false cur := by
        cases f <;>
          simp [consume_next, extract_define, handle_define2, hgt, hne]
      rw [hstep, ihs]
      simp [outItems, outItem, applyCtx, applyItems, applyItem]
    | .undefTag t =>
      have hne : t ≠ "" := hi.1
      have hns : ∀ c ∈ t.data, cIsSpace c = false := fun c hc => (hi.2 c hc).1
      have hgt : get_tag (t.data ++ '\n' :: (renderItems is ++ rest)) =
          (t, renderItems is ++ rest) := get_tag_line t _ hns
      have ihs := ih f (rest) (⟨ctx.Tags.erase t, ctx.Depth⟩) cur h2
      simp only [renderItems, renderItem, List.append_assoc, List.cons_append,
        List.nil_append]
      have hstep : consume_next f
          (PP_START :: 'u' :: 'n' :: 'd' :: 'e' :: 'f' :: ' ' ::
            (t.data ++ '\n' :: (renderItems is ++ rest))) ctx false cur =
          consume_next f (renderItems is ++ rest) ⟨ctx.Tags.erase t, ctx.Depth⟩ false cur := by
        cases f <;>
          simp [consume_next, extract_undef, handle_undef2, hgt, hne]
      rw [hstep, ihs]
      simp [outItems, outItem, applyCtx, applyItems, applyItem]

/-- A body pass hitting `#elif ` returns control with `cur = Elif` and the
stream right after the keyword and its separating space. -/
theorem consume_next_elif (f : Nat) (r : List Char) (ctx : Context) (ign : Bool)
    (cur : Operation) :
    consume_next f (PP_START :: 'e' :: 'l' :: 'i' :: 'f' :: ' ' :: r) ctx ign cur =
      .ok [] (ctx, r, .Elif) := by
  cases f <;> simp [consume_next, extract_elif]

/-- A body pass hitting `#else` returns control with `cur = Else`. -/
theorem consume_next_else (f : Nat) (r : List Char) (ctx : Context) (ign : Bool)
    (cur : Operation) :
    consume_next f (PP_START :: 'e' :: 'l' :: 's' :: 'e' :: '\n' :: r) ctx ign cur =
      .ok [] (ctx, r, .Else) := by
  cases f <;> simp [consume_next, extract_else]

/-- A body pass hitting `#endif` returns control with `cur = Endif`. -/
theorem consume_next_endif (f : Nat) (r : List Char) (ctx : Context) (ign : Bool)
    (cur : Operation) :
    consume_next f (PP_START :: 'e' :: 'n' :: 'd' :: 'i' :: 'f' :: '\n' :: r) ctx ign cur =
      .ok [] (ctx, r, .Endif) := by
  cases f <;> simp [consume_next, extract_endif]

/-- The last pass of a chain: a body followed directly by `#endif`.  The
body is emitted and applied exactly when the branch is active. -/
theorem chain_last (body : List Item) (tail : List Char) (f : Nat) (ctx : Context)
    (cond : Bool) (cur : Operation) (hb : GoodItems body) (hf : 1 ≤ f) :
    if_loop f (renderItems body ++ (renderEndif ++ tail)) ctx false cond false cur =
      .ok (if cond then outItems body else [])
        ((if cond then applyCtx ctx body else ctx), tail) := by
  obtain ⟨f2, rfl⟩ : ∃ f2, f = f2 + 1 := ⟨f - 1, by omega⟩
  cases cond with
  | true =>
    have hpass := consume_next_items_act body f2 (renderEndif ++ tail) ctx cur hb
    rw [show renderEndif ++ tail =
      PP_START :: 'e' :: 'n' :: 'd' :: 'i' :: 'f' :: '\n' :: tail from rfl] at hpass
    rw [consume_next_endif] at hpass
    simp only [if_loop, Bool.or_false, Bool.not_true, Bool.or_self]
    rw [show renderEndif ++ tail =
      PP_START :: 'e' :: 'n' :: 'd' :: 'i' :: 'f' :: '\n' :: tail from rfl]
    rw [hpass]
    simp [Res.prep]
  | false =>
    have hpass := consume_next_items_ign body f2 (renderEndif ++ tail) ctx cur hb
    rw [show renderEndif ++ tail =
      PP_START :: 'e' :: 'n' :: 'd' :: 'i' :: 'f' :: '\n' :: tail from rfl] at hpass
    rw [consume_next_endif] at hpass
    simp only [if_loop, Bool.or_false, Bool.not_false, Bool.or_true]
    rw [show renderEndif ++ tail =
      PP_START :: 'e' :: 'n' :: 'd' :: 'i' :: 'f' :: '\n' :: tail from rfl]
    rw [hpass]
    simp

/-- After some branch of the chain fired, every remaining branch is fully
skipped: guards are left on the stream and scanned as suppressed content,
bodies emit nothing and mutate nothing, and the loop ends at the chain's
`#endif` with the context unchanged. -/
theorem chain_skip (elifs : List Branch) : ∀ (els : Option (List Item)) (body : List Item)
    (pre tail : List Char) (f : Nat) (ctx : Context) (cond : Bool) (cur : Operation),
    (∀ c ∈ pre, c ≠ PP_START) → GoodItems body → GoodElifs elifs → GoodEls els →
    chainPasses elifs els ≤ f →
    if_loop f (pre ++ (renderItems body ++ (renderElifs elifs ++
        (renderElse els ++ (renderEndif ++ tail))))) ctx false cond true cur =
      .ok [] (ctx, tail) := by
  induction elifs with
  | nil =>
    intro els body pre tail f ctx cond cur hpre hb _ hels hf
    cases els with
    | none =>
      obtain ⟨f2, rfl⟩ : ∃ f2, f = f2 + 1 := ⟨f - 1, by simp [chainPasses] at hf; omega⟩
      have hpass : consume_next f2 (pre ++ (renderItems body ++ (renderElifs [] ++
          (renderElse none ++ (renderEndif ++ tail))))) ctx true cur =
          .ok [] (ctx, tail, .Endif) := by
        rw [consume_next_chars_ign pre f2 _ ctx cur hpre,
          consume_next_items_ign body f2 _ ctx cur hb]
        simp only [renderElifs, renderElse, List.nil_append, renderEndif, List.cons_append]
        rw [consume_next_endif]
      simp only [if_loop, Bool.or_true, Bool.true_or, Bool.or_false]
      rw [hpass]
      simp
    | some b =>
      obtain ⟨f2, rfl⟩ : ∃ f2, f = f2 + 1 := ⟨f - 1, by simp [chainPasses] at hf; omega⟩
      have hf3 : 1 ≤ f2 := by simp [chainPasses] at hf; omega
      obtain ⟨f3, rfl⟩ : ∃ f3, f2 = f3 + 1 := ⟨f2 - 1, by omega⟩
      have hpass : consume_next (f3 + 1) (pre ++ (renderItems body ++ (renderElifs [] ++
          (renderElse (some b) ++ (renderEndif ++ tail))))) ctx true cur =
          .ok [] (ctx, renderItems b ++ (renderEndif ++ tail), .Else) := by
        rw [consume_next_chars_ign pre (f3 + 1) _ ctx cur hpre,
          consume_next_items_ign body (f3 + 1) _ ctx cur hb]
        simp only [renderElifs, renderElse, List.nil_append, List.cons_append,
          List.append_assoc]
        rw [consume_next_else]
      have hpass2 : consume_next f3 (renderItems b ++ (renderEndif ++ tail)) ctx true
          Operation.Else = .ok [] (ctx, tail, .Endif) := by
        rw [consume_next_items_ign b f3 _ ctx Operation.Else hels]
        simp only [renderEndif, List.cons_append]
        rw [consume_next_endif]
        simp
      simp only [if_loop, Bool.or_true, Bool.true_or, Bool.or_false]
      rw [hpass]
      simp [if_loop, hpass2, Res.prep]
  | cons e es ih =>
    intro els body pre tail f ctx cond cur hpre hb helifs hels hf
    have hge : GoodGuard e.guard ∧ GoodItems e.body :=
      helifs e (List.mem_cons_self _ _)
    have hes : GoodElifs es := fun j hj => helifs j (List.mem_cons_of_mem _ hj)
    obtain ⟨f2, rfl⟩ : ∃ f2, f = f2 + 1 := ⟨f - 1, by simp [chainPasses] at hf; omega⟩
    have hpass : consume_next f2 (pre ++ (renderItems body ++ (renderElifs (e :: es) ++
        (renderElse els ++ (renderEndif ++ tail))))) ctx true cur =
        .ok [] (ctx, e.guard.data ++ '\n' :: (renderItems e.body ++ (renderElifs es ++
          (renderElse els ++ (renderEndif ++ tail)))), .Elif) := by
      rw [consume_next_chars_ign pre f2 _ ctx cur hpre,
        consume_next_items_ign body f2 _ ctx cur hb]
      simp only [renderElifs, List.cons_append, List.append_assoc]
      rw [consume_next_elif]
    have hpre2 : ∀ c ∈ e.guard.data ++ ['\n'], c ≠ PP_START := by
      intro c hc
      rcases List.mem_append.mp hc with hc1 | hc1
      · exact (hge.1 c hc1).1
      · simp at hc1; subst hc1; decide
    have hrec := ih els e.body (e.guard.data ++ ['\n']) tail f2 ctx false Operation.Elif
      hpre2 hge.2 hes hels (by simp [chainPasses] at hf; omega)
    have hshape : (e.guard.data ++ ['\n']) ++ (renderItems e.body ++ (renderElifs es ++
        (renderElse els ++ (renderEndif ++ tail)))) =
        e.guard.data ++ '\n' :: (renderItems e.body ++ (renderElifs es ++
        (renderElse els ++ (renderEndif ++ tail)))) := by simp
    rw [hshape] at hrec
    simp only [if_loop, Bool.or_true, Bool.true_or, Bool.or_false]
    rw [hpass]
    simp [hrec, Res.prep]

/-- The branch loop on a rendered chain with no branch fired yet: exactly
the current branch (if its guard held) or the first later branch whose
guard evaluates true (else catch-all) is emitted and applied to the Tag
Context; everything else is suppressed, and the loop ends right after the
chain's `#endif`. -/
theorem chain_loop (elifs : List Branch) : ∀ (els : Option (List Item)) (body : List Item)
    (tail : List Char) (f : Nat) (tg : List String) (d : Nat) (cond : Bool) (cur : Operation),
    GoodItems body → GoodElifs elifs → GoodEls els →
    chainPasses elifs els ≤ f →
    if_loop f (renderItems body ++ (renderElifs elifs ++ (renderElse els ++
        (renderEndif ++ tail)))) ⟨tg, d⟩ false cond false cur =
      .ok (outItems (if cond then body else selectFrom tg elifs els))
        (applyCtx ⟨tg, d⟩ (if cond then body else selectFrom tg elifs els), tail) := by
  induction elifs with
  | nil =>
    intro els body tail f tg d cond cur hb _ hels hf
    cases els with
    | none =>
      have hlast := chain_last body tail f ⟨tg, d⟩ cond cur hb
        (by simp [chainPasses] at hf; omega)
      simp only [renderElifs, renderElse, List.nil_append]
      rw [hlast]
      cases cond <;> simp [selectFrom, outItems, applyCtx, applyItems]
    | some b =>
      obtain ⟨f2, rfl⟩ : ∃ f2, f = f2 + 1 := ⟨f - 1, by simp [chainPasses] at hf; omega⟩
      have hf2 : 1 ≤ f2 := by simp [chainPasses] at hf; omega
      cases cond with
      | true =>
        have hpass : consume_next f2 (renderItems body ++ (renderElifs [] ++
            (renderElse (some b) ++ (renderEndif ++ tail)))) ⟨tg, d⟩ false cur =
            .ok (outItems body) (applyCtx ⟨tg, d⟩ body,
              renderItems b ++ (renderEndif ++ tail), .Else) := by
          rw [consume_next_items_act body f2 _ ⟨tg, d⟩ cur hb]
          simp only [renderElifs, renderElse, List.nil_append, List.cons_append,
            List.append_assoc]
          rw [consume_next_else]
          simp [Res.prep]
        have hskip := chain_skip [] none b [] tail f2 (applyCtx ⟨tg, d⟩ body) false
          Operation.Else (by intro c hc; simp at hc) hels (by intro j hj; simp at hj)
          trivial (by simp [chainPasses]; omega)
        simp only [renderElifs, renderElse, List.nil_append] at hskip
        simp only [if_loop, Bool.or_false, Bool.not_true, Bool.or_self]
        rw [hpass]
        simp [hskip, Res.prep]
      | false =>
        have hpass : consume_next f2 (renderItems body ++ (renderElifs [] ++
            (renderElse (some b) ++ (renderEndif ++ tail)))) ⟨tg, d⟩ true cur =
            .ok [] (⟨tg, d⟩, renderItems b ++ (renderEndif ++ tail), .Else) := by
          rw [consume_next_items_ign body f2 _ ⟨tg, d⟩ cur hb]
          simp only [renderElifs, renderElse, List.nil_append, List.cons_append,
            List.append_assoc]
          rw [consume_next_else]
        have hlast := chain_last b tail f2 ⟨tg, d⟩ true Operation.Else hels hf2
        simp only [if_loop, Bool.or_false, Bool.not_false, Bool.or_true]
        rw [hpass]
        simp [hlast, Res.prep, selectFrom]
  | cons e es ih =>
    intro els body tail f tg d cond cur hb helifs hels hf
    have hge : GoodGuard e.guard ∧ GoodItems e.body :=
      helifs e (List.mem_cons_self _ _)
    have hes : GoodElifs es := fun j hj => helifs j (List.mem_cons_of_mem _ hj)
    obtain ⟨f2, rfl⟩ : ∃ f2, f = f2 + 1 := ⟨f - 1, by simp [chainPasses] at hf; omega⟩
    have hfr : chainPasses es els ≤ f2 := by simp [chainPasses] at hf; omega
    cases cond with
    | true =>
      have hpass : consume_next f2 (renderItems body ++ (renderElifs (e :: es) ++
          (renderElse els ++ (renderEndif ++ tail)))) ⟨tg, d⟩ false cur =
          .ok (outItems body) (applyCtx ⟨tg, d⟩ body,
            e.guard.data ++ '\n' :: (renderItems e.body ++ (renderElifs es ++
              (renderElse els ++ (renderEndif ++ tail)))), .Elif) := by
        rw [consume_next_items_act body f2 _ ⟨tg, d⟩ cur hb]
        simp only [renderElifs, List.cons_append, List.append_assoc]
        rw [consume_next_elif]
        simp [Res.prep]
      have hpre2 : ∀ c ∈ e.guard.data ++ ['\n'], c ≠ PP_START := by
        intro c hc
        rcases List.mem_append.mp hc with hc1 | hc1
        · exact (hge.1 c hc1).1
        · simp at hc1; subst hc1; decide
      have hskip := chain_skip es els e.body (e.guard.data ++ ['\n']) tail f2
        (applyCtx ⟨tg, d⟩ body) false Operation.Elif hpre2 hge.2 hes hels hfr
      have hshape : (e.guard.data ++ ['\n']) ++ (renderItems e.body ++ (renderElifs es ++
          (renderElse els ++ (renderEndif ++ tail)))) =
          e.guard.data ++ '\n' :: (renderItems e.body ++ (renderElifs es ++
          (renderElse els ++ (renderEndif ++ tail)))) := by simp
      rw [hshape] at hskip
      simp only [if_loop, Bool.or_false, Bool.not_true, Bool.or_self]
      rw [hpass]
      simp [hskip, Res.prep]
    | false =>
      have hpass : consume_next f2 (renderItems body ++ (renderElifs (e :: es) ++
          (renderElse els ++ (renderEndif ++ tail)))) ⟨tg, d⟩ true cur =
          .ok [] (⟨tg, d⟩,
            e.guard.data ++ '\n' :: (renderItems e.body ++ (renderElifs es ++
              (renderElse els ++ (renderEndif ++ tail)))), .Elif) := by
        rw [consume_next_items_ign body f2 _ ⟨tg, d⟩ cur hb]
        simp only [renderElifs, List.cons_append, List.append_assoc]
        rw [consume_next_elif]
      have hcond := handle_condition_guard e.guard tg d
        (renderItems e.body ++ (renderElifs es ++ (renderElse els ++ (renderEndif ++ tail))))
        (fun c hc => (hge.1 c hc).2)
      have hrec := ih els e.body tail f2 tg d (evalGuardT e.guard tg) Operation.Elif
        hge.2 hes hels hfr
      simp only [if_loop, Bool.or_false, Bool.not_false, Bool.or_true]
      rw [hpass]
      simp [hcond, hrec, Res.prep, selectFrom]

/-- C3 counterexample: a chain whose skipped `#elif` guard text contains a
directive marker.  With tag `a` defined, the `if` branch fires (emitting
`A`), the `elif` guard `b #endif` is left on the stream and its embedded
`#endif` terminates the chain early — so the body `B` of the later branch
is then emitted as top-level text (and the final `#endif` echoed): TWO
branch bodies appear in the output, refuting "exactly one branch body is
emitted". -/
theorem c3_counterexample :
    consume 10 "#if a\nA\n#elif b #endif\nB\n#endif\nC".data ⟨["a"], 0⟩ false =
      .ok "A\nB\n#endifC".data ⟨["a"], 0⟩ := by
  have he1 : extract_operation "if a\nA\n#elif b #endif\nB\n#endif\nC".data =
      (.If, "if", "a\nA\n#elif b #endif\nB\n#endif\nC".data) := by decide
  have hl : lexLine "a\nA\n#elif b #endif\nB\n#endif\nC".data =
      ([Token.Tag "a"], "A\n#elif b #endif\nB\n#endif\nC".data) := by decide
  have hc : handle_condition "a\nA\n#elif b #endif\nB\n#endif\nC".data ⟨["a"], 0⟩ =
      (true, "A\n#elif b #endif\nB\n#endif\nC".data) := by
    rw [handle_condition_eq, hl]
    simp [bcVal_stop, ucVal_cons, ucRest_cons, pcVal_tag, pcRest_tag, curTok, Context.hasTag]
  have he2 : extract_operation "elif b #endif\nB\n#endif\nC".data =
      (.Elif, "elif", "b #endif\nB\n#endif\nC".data) := by decide
  have he3 : extract_operation "endif\nB\n#endif\nC".data =
      (.Endif, "endif", "B\n#endif\nC".data) := by decide
  have he4 : extract_operation "endif\nC".data = (.Endif, "endif", "C".data) := by decide
  simp [consume, consume_next, handle_if, if_loop, Res.prep, he1, he2, he3, he4, hc, PP_START]

/-- C3 (amended): for a well-formed chain — guards free of the directive
marker and of newlines, bodies made of marker-free text and well-formed
`#define`/`#undef` lines — exactly one branch body is processed: the `if`
body if its guard is true, otherwise the first `elif` (in order) whose
guard is true, otherwise the `else` body.  Only that body's text is
emitted and only that body's `define`/`undef` directives mutate the Tag
Context; all other branches (their guards included) are consumed without
effect, and the stream ends right after the chain's `#endif`. -/
theorem c3_amended (g0 : String) (b0 : List Item) (elifs : List Branch)
    (els : Option (List Item)) (tail : List Char) (f : Nat) (tg : List String) (d : Nat)
    (hg : GoodGuard g0) (hb : GoodItems b0) (he : GoodElifs elifs) (hel : GoodEls els)
    (hf : chainPasses elifs els + 1 ≤ f) :
    handle_if f (g0.data ++ '\n' :: (renderItems b0 ++ (renderElifs elifs ++
        (renderElse els ++ (renderEndif ++ tail))))) ⟨tg, d⟩ false =
      .ok (outItems (chainSelect tg g0 b0 elifs els))
        (⟨applyItems tg (chainSelect tg g0 b0 elifs els), d⟩, tail) := by
  obtain ⟨f2, rfl⟩ : ∃ f2, f = f2 + 1 := ⟨f - 1, by omega⟩
  have hcond := handle_condition_guard g0 tg d
    (renderItems b0 ++ (renderElifs elifs ++ (renderElse els ++ (renderEndif ++ tail))))
    (fun c hc => (hg c hc).2)
  have hloop := chain_loop elifs els b0 tail f2 tg (d + 1) (evalGuardT g0 tg) Operation.If
    hb he hel (by omega)
  simp only [handle_if, Bool.false_eq_true, if_neg, ite_false, hcond, hloop]
  simp [chainSelect, applyCtx]

/-- C3 witness: a concrete chain `#if a … #elif b … #else … #endif` with
`a` defined: the `if` body (text plus a `#define Z`) is selected; the
`#define W` in the skipped `elif` body does not mutate the context. -/
theorem c3_witness :
    handle_if 10 (("a" : String).data ++ '\n' ::
        (renderItems [Item.text "A\n", Item.defineTag "Z"] ++
          (renderElifs [⟨"b", [Item.defineTag "W"]⟩] ++
            (renderElse (some [Item.text "C\n"]) ++ (renderEndif ++ "T".data)))))
      ⟨["a"], 0⟩ false =
      .ok (outItems (chainSelect ["a"] "a" [Item.text "A\n", Item.defineTag "Z"]
          [⟨"b", [Item.defineTag "W"]⟩] (some [Item.text "C\n"])))
        (⟨applyItems ["a"] (chainSelect ["a"] "a" [Item.text "A\n", Item.defineTag "Z"]
            [⟨"b", [Item.defineTag "W"]⟩] (some [Item.text "C\n"])), 0⟩, "T".data) :=
  c3_amended "a" [Item.text "A\n", Item.defineTag "Z"] [⟨"b", [Item.defineTag "W"]⟩]
    (some [Item.text "C\n"]) "T".data 10 ["a"] 0
    (by intro c hc; simp at hc; subst hc; decide)
    (by intro i hi; simp at hi; rcases hi with h | h <;> subst h <;>
        simp only [GoodItem, GoodText, GoodTag] <;> decide)
    (by intro e he; simp at he; subst he; constructor
        · intro c hc; simp at hc; subst hc; decide
        · intro i hi; simp at hi; subst hi
          simp only [GoodItem, GoodTag]; decide)
    (by intro i hi; simp at hi; subst hi
        simp only [GoodItem, GoodText]; decide)
    (by decide)
